import Mathlib

/-!
Verification of the CS3560-WSS survival-game core against its design notes.

The definitions below are shallow embeddings of the Python sources:

* `Inventory`, `add`, `spend`, `balance`  — `src/systems/inventory.py`
* `evaluateTradeOffer`, `counterTradeOffer`, `greedyEvaluateTradeOffer`,
  `greedyCounterTradeOffer` — `src/actors/trader.py`
* `updateInventoryAfterTrade`, `proposeTrade` — `src/actors/actor.py`,
  `src/actors/player.py`
* `scanArea` and friends — `src/ai/vision.py` / `src/ai/ai.py`
* `aStarPath`, `findPathTo` — `src/ai/brains.py`

Machine integers are modelled as `ℤ` (Python ints are unbounded).  A Python
`None` / `float('inf')` movement cost is modelled as `Option.none`.  A raised
exception (`ValueError` in `Inventory.add`) is modelled as an `Option.none`
result.  Dictionaries are modelled as association lists with unique keys.
-/

/-! ## Inventory (src/systems/inventory.py) -/

/-- The `Inventory` dataclass: three resource counters and a shared cap. -/
structure Inventory where
  gold : ℤ
  food : ℤ
  water : ℤ
  max_items : ℤ
deriving DecidableEq, Repr

/-- `Inventory.balance`: the usable amount of a resource, `-1` for an unknown
resource string. -/
def balance (resource : String) (inv : Inventory) : ℤ :=
  if resource = "gold" then inv.gold
  else if resource = "food" then inv.food
  else if resource = "water" then inv.water
  else -1

/-- `Inventory.add`: each counter is capped above by `max_items`; an unknown
resource raises `ValueError`, modelled as `none`. -/
def add (resource : String) (amount : ℤ) (inv : Inventory) : Option Inventory :=
  if resource = "gold" then some { inv with gold := min (inv.gold + amount) inv.max_items }
  else if resource = "food" then some { inv with food := min (inv.food + amount) inv.max_items }
  else if resource = "water" then some { inv with water := min (inv.water + amount) inv.max_items }
  else none

/-- `Inventory.spend`: succeeds (and deducts) exactly when the counter is at
least the requested amount; otherwise returns `False` and leaves the
inventory unchanged. -/
def spend (resource : String) (amount : ℤ) (inv : Inventory) : Bool × Inventory :=
  if resource = "gold" ∧ amount ≤ inv.gold then
    (true, { inv with gold := inv.gold - amount })
  else if resource = "food" ∧ amount ≤ inv.food then
    (true, { inv with food := inv.food - amount })
  else if resource = "water" ∧ amount ≤ inv.water then
    (true, { inv with water := inv.water - amount })
  else (false, inv)

/-! ## Trade negotiation (src/actors/trader.py) -/

/-- One side of a trade proposal: `{'item': item, 'quantity': quantity}`. -/
structure TradeSide where
  item : String
  quantity : ℤ
deriving DecidableEq, Repr

/-- A counter-offer dictionary as built by `counter_trade_offer`. -/
structure CounterOffer where
  item : String
  quantity : ℤ
  item_given : String
  quantity_given : ℤ
deriving DecidableEq, Repr

/-- `Trader.evaluate_trade_offer`: accept iff the trader has stock for the
request and the player offers at least half the requested quantity.  The
Python comparison `quantity_given >= quantity_requested / 2` is exact
rational arithmetic on these integer quantities, i.e. `2 * given ≥ requested`. -/
def evaluateTradeOffer (tinv : Inventory) (presenting requesting : TradeSide) : Bool :=
  let traderHasStock := requesting.quantity ≤ balance requesting.item tinv
  let isReasonableOffer := requesting.quantity ≤ 2 * presenting.quantity
  decide traderHasStock && decide isReasonableOffer

/-- `Trader.counter_trade_offer`: `None` when the trader has none of the
requested resource; otherwise the trader gives `min requested stock` and asks
for half of that, rounded up (`(q + 1) // 2` is Python floor division,
`Int.fdiv`), at least 1. -/
def counterTradeOffer (tinv : Inventory) (presenting requesting : TradeSide) :
    Option CounterOffer :=
  let maxQuantityAvailable := balance requesting.item tinv
  if maxQuantityAvailable ≤ 0 then none
  else
    let counterQuantityRequested := min requesting.quantity maxQuantityAvailable
    let counterQuantityGiven := max 1 ((counterQuantityRequested + 1).fdiv 2)
    some { item := requesting.item
           quantity := counterQuantityRequested
           item_given := presenting.item
           quantity_given := counterQuantityGiven }

/-- `GreedyTrader.evaluate_trade_offer`: accept iff the trader has stock and
the player offers at least a 1:1 quantity. -/
def greedyEvaluateTradeOffer (tinv : Inventory) (presenting requesting : TradeSide) : Bool :=
  let traderHasStock := requesting.quantity ≤ balance requesting.item tinv
  let isReasonableOffer := requesting.quantity ≤ presenting.quantity
  decide traderHasStock && decide isReasonableOffer

/-- `GreedyTrader.counter_trade_offer`: the trader gives at most half the
requested amount (floor, at least 1, capped by stock) and demands the full
requested quantity of the offered resource. -/
def greedyCounterTradeOffer (tinv : Inventory) (presenting requesting : TradeSide) :
    Option CounterOffer :=
  let maxStock := balance requesting.item tinv
  if maxStock ≤ 0 then none
  else
    some { item := requesting.item
           quantity := max 1 (min (requesting.quantity.fdiv 2) maxStock)
           item_given := presenting.item
           quantity_given := requesting.quantity }

/-! ## Trade settlement (src/actors/actor.py, src/actors/player.py) -/

/-- `Actor.update_inventory_after_trade`: spend the given item (the Boolean
result of `spend` is discarded by the source), then add the requested item. -/
def updateInventoryAfterTrade (inv : Inventory) (itemGiven : String) (quantityGiven : ℤ)
    (itemRequested : String) (quantityRequested : ℤ) : Option Inventory :=
  add itemRequested quantityRequested (spend itemGiven quantityGiven inv).2

/-- `Player.evaluate_counter_offer`: accept iff the counter-offered quantity
is at most 10. -/
def evaluateCounterOffer (c : CounterOffer) : Bool :=
  decide (c.quantity ≤ 10)

/-- `Player.propose_trade` against a standard trader, returning the resulting
(player, trader) inventories.  On direct acceptance the player runs
`update_inventory_after_trade` while the trader runs `add` then `spend`; on an
accepted counter-offer both sides run `update_inventory_after_trade` with the
counter-offer's fields.  `none` models a raised `ValueError`. -/
def proposeTrade (pinv tinv : Inventory) (presenting requesting : TradeSide) :
    Option Inventory × Option Inventory :=
  if evaluateTradeOffer tinv presenting requesting then
    (updateInventoryAfterTrade pinv presenting.item presenting.quantity
        requesting.item requesting.quantity,
     (add presenting.item presenting.quantity tinv).map
        (fun t1 => (spend requesting.item requesting.quantity t1).2))
  else
    match counterTradeOffer tinv presenting requesting with
    | some c =>
        if evaluateCounterOffer c then
          (updateInventoryAfterTrade pinv c.item_given c.quantity_given c.item c.quantity,
           updateInventoryAfterTrade tinv c.item_given c.quantity_given c.item c.quantity)
        else (some pinv, some tinv)
    | none => (some pinv, some tinv)

/-! ## Sequences of ledger operations (for the ledger-bounds property) -/

/-- A single ledger call. -/
inductive InvOp where
  | addOp (resource : String) (amount : ℤ)
  | spendOp (resource : String) (amount : ℤ)
deriving DecidableEq, Repr

/-- The amount carried by a ledger call. -/
def InvOp.amount : InvOp → ℤ
  | .addOp _ a => a
  | .spendOp _ a => a

/-- Run one ledger call; a raised exception is `none`. -/
def applyOp (op : InvOp) (inv : Inventory) : Option Inventory :=
  match op with
  | .addOp r a => add r a inv
  | .spendOp r a => some (spend r a inv).2

/-- Run a sequence of ledger calls, stopping at the first exception. -/
def applyOps : List InvOp → Inventory → Option Inventory
  | [], inv => some inv
  | op :: ops, inv =>
      match applyOp op inv with
      | some inv' => applyOps ops inv'
      | none => none

/-- Every counter within `[0, max_items]`. -/
def LedgerInBounds (inv : Inventory) : Prop :=
  0 ≤ inv.gold ∧ inv.gold ≤ inv.max_items ∧
  0 ≤ inv.food ∧ inv.food ≤ inv.max_items ∧
  0 ≤ inv.water ∧ inv.water ≤ inv.max_items

instance (inv : Inventory) : Decidable (LedgerInBounds inv) := by
  unfold LedgerInBounds; infer_instance

/-! ## Theorems about trade evaluation (claim C2) -/

/-- C2: a standard trader accepts iff it stocks the requested quantity and the
offer is at least half the request (exact rational half); a greedy trader
accepts iff it stocks the requested quantity and the offer is at least the
full request. -/
theorem trade_acceptance_thresholds (tinv : Inventory) (presenting requesting : TradeSide) :
    (evaluateTradeOffer tinv presenting requesting = true ↔
      (requesting.quantity ≤ balance requesting.item tinv ∧
        (requesting.quantity : ℚ) / 2 ≤ (presenting.quantity : ℚ))) ∧
    (greedyEvaluateTradeOffer tinv presenting requesting = true ↔
      (requesting.quantity ≤ balance requesting.item tinv ∧
        requesting.quantity ≤ presenting.quantity)) := by
  constructor
  · unfold evaluateTradeOffer
    simp only [Bool.and_eq_true, decide_eq_true_eq]
    constructor
    · rintro ⟨h1, h2⟩
      refine ⟨h1, ?_⟩
      rw [div_le_iff₀ (by norm_num)]
      have : ((requesting.quantity : ℚ)) ≤ ((2 * presenting.quantity : ℤ) : ℚ) := by
        exact_mod_cast h2
      push_cast at this
      linarith
    · rintro ⟨h1, h2⟩
      refine ⟨h1, ?_⟩
      rw [div_le_iff₀ (by norm_num)] at h2
      have : ((requesting.quantity : ℚ)) ≤ ((2 * presenting.quantity : ℤ) : ℚ) := by
        push_cast
        linarith
      exact_mod_cast this
  · unfold greedyEvaluateTradeOffer
    simp only [Bool.and_eq_true, decide_eq_true_eq]

/-! ## Theorems about counter-offers (claim C4) -/

/-- C4 counterexample: the standard trader does not halve the requested
quantity.  With stock 10, an offer of 1 gold for 4 food is countered with the
full 4 food (for 2 gold), while halving the request (floor, min 1, capped by
stock) would give 2. -/
theorem counter_offer_not_halved :
    (counterTradeOffer ⟨0, 10, 0, 300⟩ ⟨"gold", 1⟩ ⟨"food", 4⟩).map CounterOffer.quantity =
      some 4 ∧
    max 1 (min ((4 : ℤ).fdiv 2) (balance "food" ⟨0, 10, 0, 300⟩)) = 2 ∧
    (4 : ℤ) ≠ 2 := by decide

/-- C4 amended: `counter_trade_offer` returns `None` exactly when the trader's
stock of the requested kind is not positive; otherwise the counter keeps the
requested quantity capped by stock (no halving) and asks the player for half
of that capped quantity, rounded up, at least 1. -/
theorem counter_offer_behavior (tinv : Inventory) (presenting requesting : TradeSide) :
    (counterTradeOffer tinv presenting requesting = none ↔
      balance requesting.item tinv ≤ 0) ∧
    (0 < balance requesting.item tinv →
      counterTradeOffer tinv presenting requesting =
        some { item := requesting.item
               quantity := min requesting.quantity (balance requesting.item tinv)
               item_given := presenting.item
               quantity_given :=
                 max 1 ((min requesting.quantity (balance requesting.item tinv) + 1).fdiv 2) }) := by
  simp only [counterTradeOffer]
  constructor
  · split_ifs with h
    · simp [h]
    · simp [h]
  · intro hpos
    rw [if_neg (by omega)]

/-- Witness for `counter_offer_behavior` at a concrete trader and offer. -/
theorem counter_offer_behavior_witness :
    0 < balance "food" ⟨0, 10, 0, 300⟩ ∧
    counterTradeOffer ⟨0, 10, 0, 300⟩ ⟨"gold", 1⟩ ⟨"food", 4⟩ =
      some ⟨"food", 4, "gold", 2⟩ := by
  refine ⟨by decide, ?_⟩
  have h := (counter_offer_behavior ⟨0, 10, 0, 300⟩ ⟨"gold", 1⟩ ⟨"food", 4⟩).2 (by decide)
  rw [h]; decide

/-! ## Theorems about `spend` (claim C10) -/

/-- Unfolding `balance` at the known resource strings. -/
theorem balance_gold (inv : Inventory) : balance "gold" inv = inv.gold := by simp [balance]

/-- Unfolding `balance` at `"food"`. -/
theorem balance_food (inv : Inventory) : balance "food" inv = inv.food := by simp [balance]

/-- Unfolding `balance` at `"water"`. -/
theorem balance_water (inv : Inventory) : balance "water" inv = inv.water := by simp [balance]

/-- Unfolding `spend` at `"gold"`. -/
theorem spend_gold (a : ℤ) (inv : Inventory) :
    spend "gold" a inv =
      if a ≤ inv.gold then (true, { inv with gold := inv.gold - a }) else (false, inv) := by
  simp only [spend]
  by_cases h : a ≤ inv.gold <;> simp [h]

/-- Unfolding `spend` at `"food"`. -/
theorem spend_food (a : ℤ) (inv : Inventory) :
    spend "food" a inv =
      if a ≤ inv.food then (true, { inv with food := inv.food - a }) else (false, inv) := by
  simp only [spend]
  by_cases h : a ≤ inv.food <;> simp [h]

/-- Unfolding `spend` at `"water"`. -/
theorem spend_water (a : ℤ) (inv : Inventory) :
    spend "water" a inv =
      if a ≤ inv.water then (true, { inv with water := inv.water - a }) else (false, inv) := by
  simp only [spend]
  by_cases h : a ≤ inv.water <;> simp [h]

/-- C10: for a known resource kind, `spend` succeeds and deducts exactly the
amount iff the counter is at least the amount, otherwise fails without
mutating; any call with a nonpositive amount on a nonnegative counter
succeeds, and a negative amount can push a counter above `max_items`. -/
theorem spend_semantics :
    (∀ (r : String) (a : ℤ) (inv : Inventory),
        r = "gold" ∨ r = "food" ∨ r = "water" →
        (((spend r a inv).1 = true ↔ a ≤ balance r inv) ∧
         (a ≤ balance r inv →
            balance r (spend r a inv).2 = balance r inv - a ∧
            (spend r a inv).2.max_items = inv.max_items ∧
            ∀ r' : String, r' ≠ r → balance r' (spend r a inv).2 = balance r' inv) ∧
         (¬ a ≤ balance r inv → spend r a inv = (false, inv)) ∧
         (0 ≤ balance r inv → a ≤ 0 → (spend r a inv).1 = true))) ∧
    ((spend "gold" (-300) ⟨100, 50, 50, 300⟩).2.gold = 400 ∧
      (⟨100, 50, 50, 300⟩ : Inventory).max_items = 300 ∧ (300 : ℤ) < 400) := by
  constructor
  · intro r a inv hr
    rcases hr with rfl | rfl | rfl
    · rw [spend_gold, balance_gold]
      by_cases ha : a ≤ inv.gold
      · rw [if_pos ha]
        refine ⟨by simp [ha], fun _ => ⟨rfl, rfl, ?_⟩,
          fun h => absurd ha h, fun _ _ => rfl⟩
        intro r' hr'
        simp [balance, hr']
      · rw [if_neg ha]
        exact ⟨by simp [ha], fun h => absurd h ha, fun _ => rfl,
          fun h0 hle => absurd (by omega : a ≤ inv.gold) ha⟩
    · rw [spend_food, balance_food]
      by_cases ha : a ≤ inv.food
      · rw [if_pos ha]
        refine ⟨by simp [ha], fun _ => ⟨rfl, rfl, ?_⟩,
          fun h => absurd ha h, fun _ _ => rfl⟩
        intro r' hr'
        simp [balance, hr']
      · rw [if_neg ha]
        exact ⟨by simp [ha], fun h => absurd h ha, fun _ => rfl,
          fun h0 hle => absurd (by omega : a ≤ inv.food) ha⟩
    · rw [spend_water, balance_water]
      by_cases ha : a ≤ inv.water
      · rw [if_pos ha]
        refine ⟨by simp [ha], fun _ => ⟨rfl, rfl, ?_⟩,
          fun h => absurd ha h, fun _ _ => rfl⟩
        intro r' hr'
        simp [balance, hr']
      · rw [if_neg ha]
        exact ⟨by simp [ha], fun h => absurd h ha, fun _ => rfl,
          fun h0 hle => absurd (by omega : a ≤ inv.water) ha⟩
  · decide

/-- Witness for `spend_semantics` on a concrete inventory. -/
theorem spend_semantics_witness :
    (("gold" : String) = "gold" ∨ ("gold" : String) = "food" ∨ ("gold" : String) = "water") ∧
    (spend "gold" 30 ⟨100, 50, 50, 300⟩).1 = true := by
  refine ⟨Or.inl rfl, ?_⟩
  exact (spend_semantics.1 "gold" 30 ⟨100, 50, 50, 300⟩ (Or.inl rfl)).1.mpr (by decide)

/-! ## Theorems about ledger bounds (claim C5) -/

/-- Helper: a single nonnegative-amount operation preserves the bounds. -/
theorem applyOp_bounds (op : InvOp) (inv inv' : Inventory) (hop : 0 ≤ op.amount)
    (hinv : LedgerInBounds inv) (h : applyOp op inv = some inv') :
    LedgerInBounds inv' := by
  obtain ⟨hg0, hgM, hf0, hfM, hw0, hwM⟩ := hinv
  cases op with
  | addOp r a =>
      simp only [applyOp, InvOp.amount] at h hop
      unfold add at h
      split_ifs at h
      · obtain rfl := Option.some.inj h
        exact ⟨by simp; omega, by simp, hf0, hfM, hw0, hwM⟩
      · obtain rfl := Option.some.inj h
        exact ⟨hg0, hgM, by simp; omega, by simp, hw0, hwM⟩
      · obtain rfl := Option.some.inj h
        exact ⟨hg0, hgM, hf0, hfM, by simp; omega, by simp⟩
  | spendOp r a =>
      simp only [applyOp, InvOp.amount] at h hop
      obtain rfl := Option.some.inj h
      unfold spend
      split_ifs with h1 h2 h3
      · obtain ⟨-, h1⟩ := h1
        exact ⟨by simp; omega, by simp; omega, hf0, hfM, hw0, hwM⟩
      · obtain ⟨-, h2⟩ := h2
        exact ⟨hg0, hgM, by simp; omega, by simp; omega, hw0, hwM⟩
      · obtain ⟨-, h3⟩ := h3
        exact ⟨hg0, hgM, hf0, hfM, by simp; omega, by simp; omega⟩
      · exact ⟨hg0, hgM, hf0, hfM, hw0, hwM⟩

/-- Helper: a sequence of nonnegative-amount operations preserves the bounds. -/
theorem applyOps_bounds : ∀ (ops : List InvOp) (inv : Inventory),
    (∀ op ∈ ops, 0 ≤ op.amount) → LedgerInBounds inv →
    ∀ inv', applyOps ops inv = some inv' → LedgerInBounds inv'
  | [], _, _, hinv, _, h => by cases h; exact hinv
  | op :: ops, inv, hops, hinv, inv', h => by
      simp only [applyOps] at h
      cases hmid : applyOp op inv with
      | none => rw [hmid] at h; cases h
      | some mid =>
          rw [hmid] at h
          exact applyOps_bounds ops mid (fun o ho => hops o (List.mem_cons_of_mem _ ho))
            (applyOp_bounds op inv mid (hops op (List.mem_cons_self _ _)) hinv hmid) inv' h

/-- C5 counterexample: a `spend` call with a negative amount pushes a counter
above `max_items`, so the bounds do not hold for arbitrary integer amounts. -/
theorem ledger_bounds_counterexample :
    LedgerInBounds ⟨100, 50, 50, 300⟩ ∧
    applyOps [InvOp.spendOp "gold" (-300)] ⟨100, 50, 50, 300⟩ = some ⟨400, 50, 50, 300⟩ ∧
    ¬ LedgerInBounds ⟨400, 50, 50, 300⟩ := by decide

/-- C5 amended: for sequences of `add`/`spend` calls with nonnegative amounts,
every counter stays within `[0, max_items]` at every intermediate state, and
`spend` of an amount exceeding the balance returns `False` without mutating. -/
theorem ledger_bounds_nonneg_amounts :
    (∀ (ops : List InvOp) (inv : Inventory),
        (∀ op ∈ ops, 0 ≤ op.amount) → LedgerInBounds inv →
        ∀ pre suf, ops = pre ++ suf →
        ∀ inv', applyOps pre inv = some inv' → LedgerInBounds inv') ∧
    (∀ (r : String) (a : ℤ) (inv : Inventory),
        balance r inv < a → spend r a inv = (false, inv)) := by
  constructor
  · intro ops inv hops hinv pre suf hsplit inv' hrun
    refine applyOps_bounds pre inv (fun op hop => hops op ?_) hinv inv' hrun
    rw [hsplit]; exact List.mem_append_left _ hop
  · intro r a inv h
    unfold spend
    split_ifs with h1 h2 h3
    · rcases h1 with ⟨rfl, hle⟩; simp [balance] at h; omega
    · rcases h2 with ⟨rfl, hle⟩; simp [balance] at h; omega
    · rcases h3 with ⟨rfl, hle⟩; simp [balance] at h; omega
    · rfl

/-- Witness for `ledger_bounds_nonneg_amounts` on a concrete call sequence. -/
theorem ledger_bounds_witness :
    (∀ op ∈ [InvOp.addOp "gold" 250, InvOp.spendOp "water" 20], 0 ≤ op.amount) ∧
    LedgerInBounds ⟨100, 50, 50, 300⟩ ∧
    applyOps [InvOp.addOp "gold" 250, InvOp.spendOp "water" 20] ⟨100, 50, 50, 300⟩ =
      some ⟨300, 50, 30, 300⟩ ∧
    LedgerInBounds ⟨300, 50, 30, 300⟩ := by
  refine ⟨by decide, by decide, by decide, ?_⟩
  exact ledger_bounds_nonneg_amounts.1
    [InvOp.addOp "gold" 250, InvOp.spendOp "water" 20] ⟨100, 50, 50, 300⟩
    (by decide) (by decide)
    [InvOp.addOp "gold" 250, InvOp.spendOp "water" 20] [] rfl
    ⟨300, 50, 30, 300⟩ (by decide)

/-! ## Theorem about trade settlement (claim C3) -/

/-- C3 demonstration: settlement is not atomic.  The player holds 2 gold and
offers 5 gold for 4 food; the trader accepts (stock and fairness checks do not
look at the player's ledger), the player's `spend` fails, yet both ledgers are
still mutated: the player keeps the 2 gold and gains 4 food, the trader gains
5 gold it was never paid and loses 4 food. -/
theorem trade_settlement_partial_update :
    evaluateTradeOffer ⟨0, 10, 0, 300⟩ ⟨"gold", 5⟩ ⟨"food", 4⟩ = true ∧
    (spend "gold" 5 ⟨2, 0, 0, 300⟩).1 = false ∧
    proposeTrade ⟨2, 0, 0, 300⟩ ⟨0, 10, 0, 300⟩ ⟨"gold", 5⟩ ⟨"food", 4⟩ =
      (some ⟨2, 4, 0, 300⟩, some ⟨5, 6, 0, 300⟩) ∧
    (⟨2, 4, 0, 300⟩ : Inventory) ≠ ⟨2, 0, 0, 300⟩ := by decide

/-! ## Vision (src/ai/vision.py, src/ai/ai.py) -/

/-- Grid positions are integer pairs, as in the Python sources. -/
abbrev Pos := ℤ × ℤ

/-- A trader as seen by `Vision.scan_area`: a position and a liveness flag. -/
structure VTrader where
  pos : Pos
  alive : Bool
deriving DecidableEq, Repr

/-- The world attributes read by `Vision.scan_area`: grid size, the item
registry (`world.items`, a dictionary from position to an item type), the
trader registry, `get_movement_cost` (with `none` for `float('inf')`), and
`get_tile`. -/
structure VisionWorld where
  width : ℕ
  height : ℕ
  items : List (Pos × String)
  traders : List VTrader
  moveCost : ℤ → ℤ → Option ℕ
  tile : ℤ → ℤ → String

/-- Dictionary lookup in the item registry (`pos in world.items`). -/
def lookupItem : List (Pos × String) → Pos → Option String
  | [], _ => none
  | (p, t) :: rest, q => if p = q then some t else lookupItem rest q

/-- The four candidate lists accumulated by `scan_area`. -/
structure ScanLists where
  resources : List (Pos × String × ℕ)
  hazards : List (Pos × String × ℕ)
  traders : List (Pos × VTrader × ℕ)
  safe_tiles : List (Pos × ℕ × ℕ)
deriving Repr

/-- One iteration of the `scan_area` double loop at offset `(dx, dy)`:
out-of-bounds cells are skipped; otherwise the cell is classified into
resources (item registry), traders (registry entries alive at the cell) and
hazards (`move_cost > 3`, which includes `inf`) or safe tiles. -/
def scanCell (w : VisionWorld) (x y dx dy : ℤ) (acc : ScanLists) : ScanLists :=
  let nx := x + dx
  let ny := y + dy
  if 0 ≤ nx ∧ nx < (w.width : ℤ) ∧ 0 ≤ ny ∧ ny < (w.height : ℤ) then
    let distance := dx.natAbs + dy.natAbs
    let pos : Pos := (nx, ny)
    let acc :=
      match lookupItem w.items pos with
      | some t => { acc with resources := acc.resources ++ [(pos, t, distance)] }
      | none => acc
    let acc := w.traders.foldl
      (fun a tr =>
        if tr.pos = pos ∧ tr.alive then
          { a with traders := a.traders ++ [(pos, tr, distance)] }
        else a) acc
    match w.moveCost nx ny with
    | none => { acc with hazards := acc.hazards ++ [(pos, w.tile nx ny, distance)] }
    | some c =>
        if 3 < c then { acc with hazards := acc.hazards ++ [(pos, w.tile nx ny, distance)] }
        else { acc with safe_tiles := acc.safe_tiles ++ [(pos, c, distance)] }
  else acc

/-- The offsets `range(-radius, radius + 1)` of the scan loops. -/
def scanOffsets (radius : ℕ) : List ℤ :=
  (List.range (2 * radius + 1)).map (fun i => (i : ℤ) - radius)

/-- The four candidate lists in raw accumulation (scan) order, before the
final `sorted(...)` calls. -/
def scanRaw (w : VisionWorld) (x y : ℤ) (radius : ℕ) : ScanLists :=
  (scanOffsets radius).foldl
    (fun acc dx => (scanOffsets radius).foldl (fun a dy => scanCell w x y dx dy a) acc)
    ⟨[], [], [], []⟩

/-- Python's `sorted(l, key=lambda e: e[2])` is a stable sort by the distance
component; any stable sort by the key computes the same list, so insertion
sort with `key a ≤ key b` is a faithful model. -/
def sortByDistance {α : Type} (l : List (Pos × α × ℕ)) : List (Pos × α × ℕ) :=
  List.insertionSort (fun a b => a.2.2 ≤ b.2.2) l

/-- `Vision.scan_area`: raw scan followed by the stable distance sorts. -/
def scanArea (w : VisionWorld) (x y : ℤ) (radius : ℕ) : ScanLists :=
  let raw := scanRaw w x y radius
  { resources := sortByDistance raw.resources
    hazards := sortByDistance raw.hazards
    traders := sortByDistance raw.traders
    safe_tiles := sortByDistance raw.safe_tiles }

/-- The output of `sortByDistance` is sorted by the distance component. -/
theorem sorted_sortByDistance {α : Type} (l : List (Pos × α × ℕ)) :
    (sortByDistance l).Sorted (fun a b => a.2.2 ≤ b.2.2) := by
  haveI : IsTotal (Pos × α × ℕ) (fun a b => a.2.2 ≤ b.2.2) := ⟨fun a b => Nat.le_total _ _⟩
  haveI : IsTrans (Pos × α × ℕ) (fun a b => a.2.2 ≤ b.2.2) := ⟨fun _ _ _ => Nat.le_trans⟩
  exact List.sorted_insertionSort _ l

/-- Inserting into a sorted-by-key list commutes with filtering on an exact
key value: the new element lands in front of the equal-key elements already
present (stability of the insertion). -/
theorem orderedInsert_filter_key {α : Type} (a : Pos × α × ℕ) (l : List (Pos × α × ℕ)) (d : ℕ) :
    (List.orderedInsert (fun a b => a.2.2 ≤ b.2.2) a l).filter (fun e => e.2.2 == d) =
      if a.2.2 == d then a :: l.filter (fun e => e.2.2 == d)
      else l.filter (fun e => e.2.2 == d) := by
  induction l with
  | nil => by_cases had : a.2.2 = d <;> simp [List.orderedInsert, List.filter_cons, had]
  | cons b l ih =>
      by_cases hab : a.2.2 ≤ b.2.2
      · rw [List.orderedInsert, if_pos hab]
        by_cases had : a.2.2 = d <;> simp [List.filter_cons, had]
      · rw [List.orderedInsert, if_neg hab]
        by_cases had : a.2.2 = d
        · have hb : ¬ b.2.2 = d := by omega
          simp [List.filter_cons, hb, had, ih]
        · by_cases hb : b.2.2 = d <;> simp [List.filter_cons, hb, had, ih]

/-- Stability of `sortByDistance`: the entries at each exact distance are kept
in their original (scan) order. -/
theorem sortByDistance_filter_key {α : Type} (l : List (Pos × α × ℕ)) (d : ℕ) :
    (sortByDistance l).filter (fun e => e.2.2 == d) = l.filter (fun e => e.2.2 == d) := by
  induction l with
  | nil => rfl
  | cons a l ih =>
      unfold sortByDistance at ih ⊢
      rw [List.insertionSort, orderedInsert_filter_key]
      by_cases had : a.2.2 = d <;> simp [List.filter_cons, had, ih]

/-- C9: each of the four lists returned by `scan_area` is sorted
non-decreasing by Manhattan distance, and within each exact distance the
entries appear in scan (insertion) order, i.e. the sorted list filtered at
any distance equals the raw accumulation filtered at that distance. -/
theorem scan_area_sorted_stable (w : VisionWorld) (x y : ℤ) (radius : ℕ) :
    ((scanArea w x y radius).resources.Sorted (fun a b => a.2.2 ≤ b.2.2) ∧
      ∀ d : ℕ, (scanArea w x y radius).resources.filter (fun e => e.2.2 == d) =
        (scanRaw w x y radius).resources.filter (fun e => e.2.2 == d)) ∧
    ((scanArea w x y radius).hazards.Sorted (fun a b => a.2.2 ≤ b.2.2) ∧
      ∀ d : ℕ, (scanArea w x y radius).hazards.filter (fun e => e.2.2 == d) =
        (scanRaw w x y radius).hazards.filter (fun e => e.2.2 == d)) ∧
    ((scanArea w x y radius).traders.Sorted (fun a b => a.2.2 ≤ b.2.2) ∧
      ∀ d : ℕ, (scanArea w x y radius).traders.filter (fun e => e.2.2 == d) =
        (scanRaw w x y radius).traders.filter (fun e => e.2.2 == d)) ∧
    ((scanArea w x y radius).safe_tiles.Sorted (fun a b => a.2.2 ≤ b.2.2) ∧
      ∀ d : ℕ, (scanArea w x y radius).safe_tiles.filter (fun e => e.2.2 == d) =
        (scanRaw w x y radius).safe_tiles.filter (fun e => e.2.2 == d)) :=
  ⟨⟨sorted_sortByDistance _, fun d => sortByDistance_filter_key _ d⟩,
   ⟨sorted_sortByDistance _, fun d => sortByDistance_filter_key _ d⟩,
   ⟨sorted_sortByDistance _, fun d => sortByDistance_filter_key _ d⟩,
   ⟨sorted_sortByDistance _, fun d => sortByDistance_filter_key _ d⟩⟩

/-! ## A* pathfinding (src/ai/brains.py) -/

/-- The world attributes read by `Brain._a_star_path` and `Brain._neighbors`:
grid size and the per-cell terrain `move_cost`.  `none` models the
`move_cost is None or move_cost == float('inf')` impassable sentinel. -/
structure GridWorld where
  width : ℕ
  height : ℕ
  cost : ℤ → ℤ → Option ℕ

/-- Membership in the grid (`0 <= nx < world.width and 0 <= ny < world.height`). -/
def inGrid (w : GridWorld) (p : Pos) : Prop :=
  0 ≤ p.1 ∧ p.1 < (w.width : ℤ) ∧ 0 ≤ p.2 ∧ p.2 < (w.height : ℤ)

instance (w : GridWorld) (p : Pos) : Decidable (inGrid w p) := by
  unfold inGrid; infer_instance

/-- `Brain._neighbors`: the four axis-aligned neighbours inside the grid, in
source order `(+1,0), (-1,0), (0,+1), (0,-1)`. -/
def neighbors (w : GridWorld) (p : Pos) : List Pos :=
  [(p.1 + 1, p.2), (p.1 - 1, p.2), (p.1, p.2 + 1), (p.1, p.2 - 1)].filter
    (fun q => decide (inGrid w q))

/-- `Brain._heuristic`: Manhattan distance. -/
def heuristic (a b : Pos) : ℕ :=
  (a.1 - b.1).natAbs + (a.2 - b.2).natAbs

/-- The `cost_so_far` and `came_from` dictionaries, which the source always
writes together: each entry is `(position, (cost, parent))`; the parent is
`none` only for the start entry. -/
abbrev AInfo := List (Pos × ℕ × Option Pos)

/-- First-match dictionary lookup. -/
def findEntry (p : Pos) : AInfo → Option (ℕ × Option Pos)
  | [] => none
  | (q, e) :: rest => if q = p then some e else findEntry p rest

/-- Dictionary assignment: replace the first entry for the key, or append. -/
def setEntry (p : Pos) (e : ℕ × Option Pos) : AInfo → AInfo
  | [] => [(p, e)]
  | (q, f) :: rest => if q = p then (p, e) :: rest else (q, f) :: setEntry p e rest

/-- The heap of `(priority, position)` entries. -/
abbrev Frontier := List (ℕ × Pos)

/-- Lexicographic comparison of heap entries, as Python compares the tuples
`(priority, (x, y))`. -/
def entryLt (a b : ℕ × Pos) : Bool :=
  decide (a.1 < b.1) ||
    (decide (a.1 = b.1) &&
      (decide (a.2.1 < b.2.1) || (decide (a.2.1 = b.2.1) && decide (a.2.2 < b.2.2))))

/-- `heapq.heappop`: remove and return a minimal entry (the comparison is a
total order, so which minimal entry `heapq` yields is determined up to
equality of entries; we take the earliest). -/
def popMin : Frontier → Option ((ℕ × Pos) × Frontier)
  | [] => none
  | e :: rest =>
      match popMin rest with
      | none => some (e, [])
      | some (m, rest') => if entryLt m e then some (m, e :: rest') else some (e, rest)

/-- The A* loop state: the heap and the cost/parent dictionary. -/
structure AState where
  frontier : Frontier
  info : AInfo

/-- The body of `for nxt in self._neighbors(current)`: impassable cells are
skipped; otherwise if `nxt` is unseen or improved, record the new cost and
parent and push `(new_cost + heuristic, nxt)`. -/
def relax (w : GridWorld) (goal current : Pos) (ccost : ℕ) (st : AState) (nxt : Pos) :
    AState :=
  match w.cost nxt.1 nxt.2 with
  | none => st
  | some mc =>
      let newCost := ccost + mc
      match findEntry nxt st.info with
      | some (oldCost, _) =>
          if newCost < oldCost then
            { frontier := (newCost + heuristic nxt goal, nxt) :: st.frontier
              info := setEntry nxt (newCost, some current) st.info }
          else st
      | none =>
          { frontier := (newCost + heuristic nxt goal, nxt) :: st.frontier
            info := setEntry nxt (newCost, some current) st.info }

/-- One iteration of the `while frontier` loop.  `none` signals loop exit:
either the frontier is empty or the goal was popped (`break`).  A popped
position is always in the dictionary (otherwise Python would raise
`KeyError`); the fallback branch is unreachable under the loop invariant. -/
def stepA (w : GridWorld) (goal : Pos) (st : AState) : Option AState :=
  match popMin st.frontier with
  | none => none
  | some ((_, current), rest) =>
      if current = goal then none
      else
        match findEntry current st.info with
        | some (ccost, _) =>
            some ((neighbors w current).foldl (relax w goal current ccost) ⟨rest, st.info⟩)
        | none => some ⟨rest, st.info⟩

/-- The fuelled `while frontier` loop. -/
def loopA (w : GridWorld) (goal : Pos) : ℕ → AState → AState
  | 0, st => st
  | fuel + 1, st =>
      match stepA w goal st with
      | none => st
      | some st' => loopA w goal fuel st'

/-- The largest movement cost of any cell in the grid (used only to size the
loop fuel). -/
def maxCellCost (w : GridWorld) : ℕ :=
  (List.range w.width).foldl
    (fun (m x : ℕ) =>
      (List.range w.height).foldl
        (fun (m' y : ℕ) => max m' ((w.cost (x : ℤ) (y : ℤ)).getD 0)) m) 0

/-- Fuel that provably dominates the loop's decreasing measure from the
initial state, so the fuelled loop runs to completion. -/
def aStarFuel (w : GridWorld) : ℕ :=
  (w.width * w.height + 1) * ((w.width * w.height + 1) * maxCellCost w + 1) + 2

/-- Path reconstruction, `while cur != start: path.append(cur); cur = came_from[cur]`,
accumulating at the front (which matches the final `path.reverse()`).  The
fuel and fallback branches are unreachable for a recorded goal: parent chains
strictly decrease in recorded cost. -/
def reconstructPath (info : AInfo) (start : Pos) : ℕ → Pos → List Pos → List Pos
  | 0, _, acc => acc
  | fuel + 1, cur, acc =>
      if cur = start then acc
      else
        match findEntry cur info with
        | some (_, some parent) => reconstructPath info start fuel parent (cur :: acc)
        | _ => acc

/-- `Brain._a_star_path`.  Returns the path (start cell excluded, goal
included) and the recorded total cost; `([], none)` models the Python
`([], float('inf'))` no-path result. -/
def aStarPath (w : GridWorld) (start goal : Pos) : List Pos × Option ℕ :=
  let final := loopA w goal (aStarFuel w) ⟨[(0, start)], [(start, 0, none)]⟩
  match findEntry goal final.info with
  | none => ([], none)
  | some (c, _) =>
      let path := reconstructPath final.info start (c + 1) goal []
      let path := if path.head? = some start then path.tail else path
      (path, some c)

/-! ## Routes: the specification side of pathfinding -/

/-- A legal move: `b` is an in-grid 4-neighbour of `a` and `b` is passable. -/
def IsStep (w : GridWorld) (a b : Pos) : Prop :=
  b ∈ neighbors w a ∧ (w.cost b.1 b.2).isSome

/-- A 4-connected route through passable cells: the list holds the cells
entered after `s`, ending at `g` (empty iff `s = g`). -/
inductive IsRoute (w : GridWorld) : Pos → List Pos → Pos → Prop
  | nil (p : Pos) : IsRoute w p [] p
  | cons {a b : Pos} {rest : List Pos} {g : Pos} :
      IsStep w a b → IsRoute w b rest g → IsRoute w a (b :: rest) g

/-- The total cost of a route: the sum of the movement costs of the entered
cells. -/
def routeCost (w : GridWorld) (r : List Pos) : ℕ :=
  (r.map (fun p => (w.cost p.1 p.2).getD 0)).sum

/-! ## Heap and dictionary lemmas -/

/-- A lexicographically smaller heap entry has a priority that is no larger. -/
theorem entryLt_true_le {a b : ℕ × Pos} (h : entryLt a b = true) : a.1 ≤ b.1 := by
  unfold entryLt at h
  simp only [Bool.or_eq_true, Bool.and_eq_true, decide_eq_true_eq] at h
  omega

/-- A lexicographically not-smaller heap entry has a priority that is no
smaller. -/
theorem entryLt_false_le {a b : ℕ × Pos} (h : entryLt a b = false) : b.1 ≤ a.1 := by
  unfold entryLt at h
  simp only [Bool.or_eq_false_iff, Bool.and_eq_false_iff, decide_eq_false_iff_not,
    not_lt, Bool.or_eq_false_iff] at h
  rcases h with ⟨h1, h2⟩
  rcases h2 with h2 | h2
  · omega
  · rcases h2.1 with h3
    omega

/-- `popMin` yields `none` only on the empty heap. -/
theorem popMin_cons_ne_none (e : ℕ × Pos) (rest : Frontier) : popMin (e :: rest) ≠ none := by
  unfold popMin
  cases h : popMin rest with
  | none => simp
  | some p =>
      obtain ⟨m, rest'⟩ := p
      by_cases hlt : entryLt m e <;> simp [hlt]

/-- `popMin` is `none` iff the heap is empty. -/
theorem popMin_eq_none_iff (l : Frontier) : popMin l = none ↔ l = [] := by
  cases l with
  | nil => simp [popMin]
  | cons e rest => simpa using popMin_cons_ne_none e rest

/-- Popping removes exactly the returned entry: the heap is a permutation of
the popped entry consed onto the remainder. -/
theorem popMin_perm : ∀ (l : Frontier) (m : ℕ × Pos) (rest : Frontier),
    popMin l = some (m, rest) → l.Perm (m :: rest)
  | [], _, _, h => by cases h
  | e :: tail, m, rest, h => by
      unfold popMin at h
      cases htail : popMin tail with
      | none =>
          rw [htail] at h
          obtain ⟨rfl, rfl⟩ : e = m ∧ [] = rest := by
            constructor <;> { injection h with h'; cases h'; rfl }
          have : tail = [] := (popMin_eq_none_iff tail).mp htail
          subst this
          exact List.Perm.refl _
      | some p =>
          obtain ⟨m', rest'⟩ := p
          rw [htail] at h
          dsimp only at h
          by_cases hlt : entryLt m' e
          · rw [if_pos hlt] at h
            obtain ⟨rfl, rfl⟩ : m' = m ∧ e :: rest' = rest := by
              constructor <;> { injection h with h'; cases h'; rfl }
            have hperm := popMin_perm tail m' rest' htail
            exact ((hperm.cons e).trans (List.Perm.swap m' e rest'))
          · rw [if_neg hlt] at h
            obtain ⟨rfl, rfl⟩ : e = m ∧ tail = rest := by
              constructor <;> { injection h with h'; cases h'; rfl }
            exact List.Perm.refl _

/-- The popped entry has minimal priority. -/
theorem popMin_le : ∀ (l : Frontier) (m : ℕ × Pos) (rest : Frontier),
    popMin l = some (m, rest) → ∀ x ∈ l, m.1 ≤ x.1
  | [], _, _, h => by cases h
  | e :: tail, m, rest, h => by
      unfold popMin at h
      cases htail : popMin tail with
      | none =>
          rw [htail] at h
          obtain rfl : e = m := by injection h with h'; cases h'; rfl
          have : tail = [] := (popMin_eq_none_iff tail).mp htail
          subst this
          intro x hx
          rcases List.mem_singleton.mp hx with rfl
          exact le_refl _
      | some p =>
          obtain ⟨m', rest'⟩ := p
          rw [htail] at h
          dsimp only at h
          have ih := popMin_le tail m' rest' htail
          by_cases hlt : entryLt m' e
          · rw [if_pos hlt] at h
            obtain rfl : m' = m := by injection h with h'; cases h'; rfl
            intro x hx
            rcases List.mem_cons.mp hx with rfl | hx
            · exact entryLt_true_le hlt
            · exact ih x hx
          · rw [if_neg hlt] at h
            obtain rfl : e = m := by injection h with h'; cases h'; rfl
            intro x hx
            rcases List.mem_cons.mp hx with rfl | hx
            · exact le_refl _
            · exact le_trans (entryLt_false_le (by simpa using hlt)) (ih x hx)

/-- Lookup after assignment. -/
theorem findEntry_setEntry (k q : Pos) (v : ℕ × Option Pos) :
    ∀ l : AInfo, findEntry q (setEntry k v l) = if q = k then some v else findEntry q l
  | [] => by
      by_cases h : q = k
      · subst h; simp [setEntry, findEntry]
      · simp [setEntry, findEntry, h, Ne.symm h]
  | (q', f) :: tail => by
      have ih := findEntry_setEntry k q v tail
      by_cases hq' : q' = k
      · subst hq'
        by_cases hq : q = q'
        · subst hq; simp [setEntry, findEntry]
        · simp [setEntry, findEntry, hq, Ne.symm hq]
      · by_cases hq : q' = q
        · subst hq
          simp [setEntry, findEntry, hq', Ne.symm hq']
        · simp [setEntry, findEntry, hq', hq, ih]

/-- Every entry of an assigned dictionary is the new binding or an old entry. -/
theorem mem_setEntry {e : Pos × ℕ × Option Pos} {k : Pos} {v : ℕ × Option Pos} :
    ∀ {l : AInfo}, e ∈ setEntry k v l → e = (k, v) ∨ e ∈ l := by
  intro l
  induction l with
  | nil => intro h; simp [setEntry] at h; exact Or.inl h
  | cons qf tail ih =>
      obtain ⟨q, f⟩ := qf
      by_cases hq : q = k
      · subst hq
        intro h
        simp only [setEntry, if_pos rfl] at h
        rcases List.mem_cons.mp h with rfl | h
        · exact Or.inl rfl
        · exact Or.inr (List.mem_cons_of_mem _ h)
      · intro h
        simp only [setEntry, if_neg hq] at h
        rcases List.mem_cons.mp h with rfl | h
        · exact Or.inr (List.mem_cons_self _ _)
        · rcases ih h with h' | h'
          · exact Or.inl h'
          · exact Or.inr (List.mem_cons_of_mem _ h')

/-- A key is absent iff lookup fails. -/
theorem findEntry_eq_none_iff (k : Pos) :
    ∀ l : AInfo, findEntry k l = none ↔ k ∉ l.map Prod.fst
  | [] => by simp [findEntry]
  | (q, f) :: tail => by
      by_cases hq : q = k
      · subst hq; simp [findEntry]
      · simp [findEntry, hq, findEntry_eq_none_iff k tail, Ne.symm hq]

/-- Assigning an existing key keeps the key list. -/
theorem keys_setEntry_found (k : Pos) (v : ℕ × Option Pos) :
    ∀ l : AInfo, findEntry k l ≠ none →
      (setEntry k v l).map Prod.fst = l.map Prod.fst
  | [], h => absurd rfl h
  | (q, f) :: tail, h => by
      by_cases hq : q = k
      · subst hq; simp [setEntry]
      · have h' : findEntry k tail ≠ none := by
          simpa [findEntry, hq] using h
        simp [setEntry, hq, keys_setEntry_found k v tail h']

/-- Assigning a fresh key appends it to the key list. -/
theorem keys_setEntry_not_found (k : Pos) (v : ℕ × Option Pos) :
    ∀ l : AInfo, findEntry k l = none →
      (setEntry k v l).map Prod.fst = l.map Prod.fst ++ [k]
  | [], _ => by simp [setEntry]
  | (q, f) :: tail, h => by
      by_cases hq : q = k
      · subst hq; simp [findEntry] at h
      · have h' : findEntry k tail = none := by
          simpa [findEntry, hq] using h
        simp [setEntry, hq, keys_setEntry_not_found k v tail h']

/-- The total recorded cost of a dictionary (used only for the termination
measure). -/
def infoCostSum (info : AInfo) : ℕ := (info.map (fun e => e.2.1)).sum

/-- Updating an existing key exchanges its recorded cost in the total. -/
theorem infoCostSum_setEntry_found (k : Pos) (v : ℕ × Option Pos) :
    ∀ (l : AInfo) (c : ℕ) (par : Option Pos), findEntry k l = some (c, par) →
      infoCostSum (setEntry k v l) + c = infoCostSum l + v.1
  | [], c, par, h => by cases h
  | (q, f) :: tail, c, par, h => by
      by_cases hq : q = k
      · subst hq
        simp only [findEntry, if_pos rfl] at h
        obtain rfl : f = (c, par) := by injection h
        simp [setEntry, infoCostSum]
        omega
      · simp only [findEntry, if_neg hq] at h
        have ih := infoCostSum_setEntry_found k v tail c par h
        simp only [setEntry, if_neg hq, infoCostSum, List.map_cons, List.sum_cons] at ih ⊢
        omega

/-- Assigning a fresh key adds its cost to the total. -/
theorem infoCostSum_setEntry_not_found (k : Pos) (v : ℕ × Option Pos) :
    ∀ l : AInfo, findEntry k l = none →
      infoCostSum (setEntry k v l) = infoCostSum l + v.1
  | [], _ => by simp [setEntry, infoCostSum]
  | (q, f) :: tail, h => by
      by_cases hq : q = k
      · subst hq; simp [findEntry] at h
      · have h' : findEntry k tail = none := by
          simpa [findEntry, hq] using h
        have ih := infoCostSum_setEntry_not_found k v tail h'
        simp only [setEntry, if_neg hq, infoCostSum, List.map_cons, List.sum_cons] at ih ⊢
        omega

/-! ## Bounds on cell costs and dictionary size -/

/-- A fold with a pointwise-increasing step never drops below its seed. -/
theorem foldl_mono_le {α : Type} (g : ℕ → α → ℕ) (hg : ∀ m v, m ≤ g m v) :
    ∀ (l : List α) (m : ℕ), m ≤ l.foldl g m
  | [], _ => le_refl _
  | a :: tail, m => le_trans (hg m a) (foldl_mono_le g hg tail (g m a))

/-- If some list element forces the accumulator of a pointwise-increasing fold
to at least `t`, so does the whole fold. -/
theorem foldl_ge_of_mem {α : Type} (g : ℕ → α → ℕ) (hg : ∀ m v, m ≤ g m v) (t : ℕ) :
    ∀ (l : List α) (v : α), v ∈ l → (∀ m, t ≤ g m v) → ∀ m, t ≤ l.foldl g m
  | [], v, hv, _, _ => absurd hv (List.not_mem_nil v)
  | a :: tail, v, hv, hval, m => by
      rcases List.mem_cons.mp hv with rfl | hv
      · exact le_trans (hval m) (foldl_mono_le g hg tail (g m v))
      · exact foldl_ge_of_mem g hg t tail v hv hval (g m a)

/-- Every passable in-grid cell costs at most `maxCellCost`. -/
theorem cell_le_maxCellCost (w : GridWorld) (p : Pos) (mc : ℕ)
    (hg : inGrid w p) (hc : w.cost p.1 p.2 = some mc) : mc ≤ maxCellCost w := by
  obtain ⟨hx0, hxW, hy0, hyH⟩ := hg
  have hx : ((p.1.toNat : ℕ) : ℤ) = p.1 := Int.toNat_of_nonneg hx0
  have hy : ((p.2.toNat : ℕ) : ℤ) = p.2 := Int.toNat_of_nonneg hy0
  have hxmem : p.1.toNat ∈ List.range w.width := List.mem_range.mpr (by omega)
  have hymem : p.2.toNat ∈ List.range w.height := List.mem_range.mpr (by omega)
  have hval : (w.cost ((p.1.toNat : ℕ) : ℤ) ((p.2.toNat : ℕ) : ℤ)).getD 0 = mc := by
    rw [hx, hy, hc]; rfl
  unfold maxCellCost
  refine foldl_ge_of_mem _ ?_ mc _ p.1.toNat hxmem ?_ 0
  · intro m v
    exact foldl_mono_le _ (fun m' v' => le_max_left _ _) _ m
  · intro m
    refine foldl_ge_of_mem _ (fun m' v' => le_max_left _ _) mc _ p.2.toNat hymem ?_ m
    intro m'
    rw [← hval]
    exact le_max_right _ _

/-- All grid cells as a list (used only to bound the dictionary size). -/
def gridPositions (w : GridWorld) : List Pos :=
  ((List.range w.width) ×ˢ (List.range w.height)).map (fun q => ((q.1 : ℤ), (q.2 : ℤ)))

/-- An in-grid position occurs in `gridPositions`. -/
theorem mem_gridPositions {w : GridWorld} {p : Pos} (h : inGrid w p) : p ∈ gridPositions w := by
  obtain ⟨hx0, hxW, hy0, hyH⟩ := h
  refine List.mem_map.mpr ⟨(p.1.toNat, p.2.toNat), ?_, ?_⟩
  · exact List.mem_product.mpr ⟨List.mem_range.mpr (by omega), List.mem_range.mpr (by omega)⟩
  · have hx : ((p.1.toNat : ℕ) : ℤ) = p.1 := Int.toNat_of_nonneg hx0
    have hy : ((p.2.toNat : ℕ) : ℤ) = p.2 := Int.toNat_of_nonneg hy0
    simp only [hx, hy]

/-- There are `width * height` grid cells. -/
theorem length_gridPositions (w : GridWorld) :
    (gridPositions w).length = w.width * w.height := by
  simp [gridPositions, List.length_product]

/-- A duplicate-free dictionary whose keys are grid cells or the start holds
at most `width * height + 1` entries. -/
theorem info_length_le (w : GridWorld) (start : Pos) (info : AInfo)
    (hnd : (info.map Prod.fst).Nodup)
    (hkeys : ∀ k ∈ info.map Prod.fst, inGrid w k ∨ k = start) :
    info.length ≤ w.width * w.height + 1 := by
  have hsub : (info.map Prod.fst).toFinset ⊆ (start :: gridPositions w).toFinset := by
    intro k hk
    rw [List.mem_toFinset] at hk ⊢
    rcases hkeys k hk with h | rfl
    · exact List.mem_cons_of_mem _ (mem_gridPositions h)
    · exact List.mem_cons_self _ _
  have h1 : (info.map Prod.fst).length = (info.map Prod.fst).toFinset.card :=
    (List.toFinset_card_of_nodup hnd).symm
  have h2 : (info.map Prod.fst).toFinset.card ≤ (start :: gridPositions w).toFinset.card :=
    Finset.card_le_card hsub
  have h3 : (start :: gridPositions w).toFinset.card ≤ (start :: gridPositions w).length :=
    List.toFinset_card_le _
  have h4 : info.length = (info.map Prod.fst).length := (List.length_map _ _).symm
  have h5 : (start :: gridPositions w).length = w.width * w.height + 1 := by
    simp [length_gridPositions]
  omega

/-! ## Route lemmas -/

/-- `routeCost` of a cons. -/
theorem routeCost_cons (w : GridWorld) (b : Pos) (r : List Pos) :
    routeCost w (b :: r) = (w.cost b.1 b.2).getD 0 + routeCost w r := by
  simp [routeCost]

/-- `routeCost` over an appended final step. -/
theorem routeCost_concat (w : GridWorld) (r : List Pos) (v : Pos) :
    routeCost w (r ++ [v]) = routeCost w r + (w.cost v.1 v.2).getD 0 := by
  simp [routeCost]

/-- Extending a route by one legal step. -/
theorem IsRoute.concat {w : GridWorld} {s t v : Pos} {r : List Pos}
    (hr : IsRoute w s r t) (hs : IsStep w t v) : IsRoute w s (r ++ [v]) v := by
  induction hr with
  | nil p => exact IsRoute.cons hs (IsRoute.nil v)
  | cons hstep _ ih => exact IsRoute.cons hstep (ih hs)

/-- A nonempty route ends in a passable cell. -/
theorem IsRoute.last_passable {w : GridWorld} {s g : Pos} {r : List Pos}
    (hr : IsRoute w s r g) (hne : r ≠ []) : (w.cost g.1 g.2).isSome := by
  induction hr with
  | nil p => exact absurd rfl hne
  | cons hstep htail ih =>
      rename_i a b rest g'
      cases rest with
      | nil => cases htail; exact hstep.2
      | cons c cs => exact ih (by simp)

/-- An empty route starts at its goal. -/
theorem IsRoute.eq_of_nil {w : GridWorld} {s g : Pos} (hr : IsRoute w s [] g) : s = g := by
  cases hr; rfl

/-- A nonempty route's last entered cell is the goal. -/
theorem IsRoute.getLast_eq {w : GridWorld} {s g : Pos} {r : List Pos}
    (hr : IsRoute w s r g) (hne : r ≠ []) : r.getLast? = some g := by
  induction hr with
  | nil p => exact absurd rfl hne
  | cons hstep htail ih =>
      rename_i a b rest g'
      cases rest with
      | nil => cases htail; rfl
      | cons c cs => rw [List.getLast?_cons_cons]; exact ih (by simp)

/-- No route reaches a distinct impassable goal. -/
theorem no_route_into_impassable {w : GridWorld} {s g : Pos} (hsg : s ≠ g)
    (himp : w.cost g.1 g.2 = none) : ∀ r, ¬ IsRoute w s r g := by
  intro r hr
  cases r with
  | nil => exact hsg hr.eq_of_nil
  | cons b rest =>
      have := hr.last_passable (by simp)
      rw [himp] at this
      cases this

/-! ## Heuristic lemmas -/

/-- The Manhattan heuristic vanishes at the goal. -/
theorem heuristic_self (p : Pos) : heuristic p p = 0 := by
  simp [heuristic]

/-- A grid step changes the Manhattan distance to any target by at most one. -/
theorem heuristic_step_le {w : GridWorld} {a b : Pos} (h : b ∈ neighbors w a) (t : Pos) :
    heuristic a t ≤ heuristic b t + 1 := by
  unfold neighbors at h
  rw [List.mem_filter] at h
  have hmem := h.1
  simp only [List.mem_cons, List.not_mem_nil, or_false] at hmem
  rcases hmem with rfl | rfl | rfl | rfl <;> · unfold heuristic; dsimp only; omega

/-- Consistency of the Manhattan heuristic along a route, when every passable
cell costs at least 1 (true of all terrains in the repository: costs 1..3). -/
theorem heuristic_le_routeCost {w : GridWorld}
    (hmin : ∀ x y c, w.cost x y = some c → 1 ≤ c) {z g : Pos} {r : List Pos}
    (hr : IsRoute w z r g) : heuristic z g ≤ routeCost w r := by
  induction hr with
  | nil p => simp [heuristic_self, routeCost]
  | cons hstep htail ih =>
      rename_i a b rest g'
      obtain ⟨hcb, hcbs⟩ := hstep
      obtain ⟨cb, hcb'⟩ := Option.isSome_iff_exists.mp hcbs
      have h1 : heuristic a g' ≤ heuristic b g' + 1 := heuristic_step_le hcb g'
      have h2 : 1 ≤ cb := hmin _ _ _ hcb'
      rw [routeCost_cons]
      rw [hcb']
      simp only [Option.getD_some]
      omega

/-! ## The A* loop invariant -/

/-- A neighbour is in the grid. -/
theorem neighbors_inGrid {w : GridWorld} {a b : Pos} (h : b ∈ neighbors w a) : inGrid w b := by
  unfold neighbors at h
  rw [List.mem_filter] at h
  exact of_decide_eq_true h.2

/-- A neighbour is a different cell. -/
theorem neighbors_ne {w : GridWorld} {a b : Pos} (h : b ∈ neighbors w a) : b ≠ a := by
  unfold neighbors at h
  rw [List.mem_filter] at h
  have hm := h.1
  simp only [List.mem_cons, List.not_mem_nil, or_false] at hm
  rcases hm with rfl | rfl | rfl | rfl <;>
    · intro he
      have h1 := congrArg Prod.fst he
      have h2 := congrArg Prod.snd he
      simp only [Prod.fst, Prod.snd] at h1 h2
      omega

/-- A recorded cost is at most the total recorded cost. -/
theorem findEntry_cost_le_sum (p : Pos) :
    ∀ (l : AInfo) (c : ℕ) (par : Option Pos),
      findEntry p l = some (c, par) → c ≤ infoCostSum l
  | [], _, _, h => by cases h
  | (q, f) :: tail, c, par, h => by
      unfold findEntry at h
      by_cases hq : q = p
      · rw [if_pos hq] at h
        obtain rfl : f = (c, par) := by injection h
        simp [infoCostSum]
      · rw [if_neg hq] at h
        have := findEntry_cost_le_sum p tail c par h
        simp only [infoCostSum, List.map_cons, List.sum_cons] at this ⊢
        omega

/-- `relaxedAt w c info u`: the edge from a node of recorded cost `c` to its
neighbour `u` has been relaxed, i.e. if `u` is passable it is recorded with a
cost of at most `c +` the cost of `u`. -/
def relaxedAt (w : GridWorld) (c : ℕ) (info : AInfo) (u : Pos) : Prop :=
  ∀ cu : ℕ, w.cost u.1 u.2 = some cu →
    ∃ c' p', findEntry u info = some (c', p') ∧ c' ≤ c + cu

/-- A recorded node is either represented in the frontier with a priority of
at most `cost + heuristic`, or all its outgoing edges have been relaxed. -/
def reachOK (w : GridWorld) (goal : Pos) (st : AState) (p : Pos) (c : ℕ) : Prop :=
  (∃ f ∈ st.frontier, f.2 = p ∧ f.1 ≤ c + heuristic p goal) ∨
  (∀ u ∈ neighbors w p, relaxedAt w c st.info u)

/-- The core A* loop invariant (everything except the relaxation property). -/
structure ACore (w : GridWorld) (start goal : Pos) (st : AState) : Prop where
  nodupKeys : (st.info.map Prod.fst).Nodup
  keysGrid : ∀ k ∈ st.info.map Prod.fst, inGrid w k ∨ k = start
  startEntry : findEntry start st.info = some (0, none)
  soundCost : ∀ p c par, findEntry p st.info = some (c, par) →
      ∃ r, IsRoute w start r p ∧ routeCost w r = c
  frontierKeyed : ∀ f ∈ st.frontier, ∃ c par, findEntry f.2 st.info = some (c, par) ∧
      (c + heuristic f.2 goal ≤ f.1 ∨ (f = (0, start) ∧ c = 0))
  parentChain : ∀ p c q, findEntry p st.info = some (c, some q) →
      ∃ cq pq mc, findEntry q st.info = some (cq, pq) ∧ p ∈ neighbors w q ∧
        w.cost p.1 p.2 = some mc ∧ cq + mc ≤ c
  parentNone : ∀ p c, findEntry p st.info = some (c, none) → p = start
  fineBound : ∀ p c par, findEntry p st.info = some (c, par) →
      c ≤ (st.info.length - 1) * maxCellCost w

/-- The full A* loop invariant. -/
def AInv (w : GridWorld) (start goal : Pos) (st : AState) : Prop :=
  ACore w start goal st ∧
  ∀ p c par, findEntry p st.info = some (c, par) → reachOK w goal st p c

/-- The termination measure of the `while frontier` loop. -/
def measureA (w : GridWorld) (st : AState) : ℕ :=
  st.frontier.length + infoCostSum st.info +
    (w.width * w.height + 1 - st.info.length) *
      ((w.width * w.height + 1) * maxCellCost w + 1)

/-- The invariant holds in the initial state. -/
theorem ainv_init (w : GridWorld) (start goal : Pos) :
    AInv w start goal ⟨[(0, start)], [(start, 0, none)]⟩ := by
  constructor
  · constructor
    · simp
    · intro k hk
      simp at hk
      exact Or.inr hk
    · simp [findEntry]
    · intro p c par h
      unfold findEntry at h
      by_cases hp : start = p
      · subst hp
        rw [if_pos rfl] at h
        obtain ⟨rfl, rfl⟩ : 0 = c ∧ (none : Option Pos) = par := by
          constructor <;> { injection h with h'; cases h'; rfl }
        exact ⟨[], IsRoute.nil start, rfl⟩
      · rw [if_neg hp] at h; cases h
    · intro f hf
      rcases List.mem_singleton.mp hf with rfl
      refine ⟨0, none, by simp [findEntry], Or.inr ⟨rfl, rfl⟩⟩
    · intro p c q h
      unfold findEntry at h
      by_cases hp : start = p
      · subst hp
        rw [if_pos rfl] at h
        injection h with h'
        cases h'
      · rw [if_neg hp] at h; cases h
    · intro p c h
      unfold findEntry at h
      by_cases hp : start = p
      · exact hp.symm ▸ rfl
      · rw [if_neg hp] at h; cases h
    · intro p c par h
      unfold findEntry at h
      by_cases hp : start = p
      · subst hp
        rw [if_pos rfl] at h
        obtain rfl : c = 0 := by injection h with h'; cases h'; rfl
        exact Nat.zero_le _
      · rw [if_neg hp] at h; cases h
  · intro p c par h
    unfold findEntry at h
    by_cases hp : start = p
    · subst hp
      rw [if_pos rfl] at h
      obtain rfl : c = 0 := by injection h with h'; cases h'; rfl
      exact Or.inl ⟨(0, start), List.mem_singleton_self _, rfl, Nat.zero_le _⟩
    · rw [if_neg hp] at h; cases h

/-! ## Preservation of the invariant under one neighbour relaxation -/

/-- Dictionary size after updating an existing key. -/
theorem length_setEntry_found (k : Pos) (v : ℕ × Option Pos) (l : AInfo)
    (h : findEntry k l ≠ none) : (setEntry k v l).length = l.length := by
  have h1 := congrArg List.length (keys_setEntry_found k v l h)
  simpa using h1

/-- Dictionary size after inserting a fresh key. -/
theorem length_setEntry_not_found (k : Pos) (v : ℕ × Option Pos) (l : AInfo)
    (h : findEntry k l = none) : (setEntry k v l).length = l.length + 1 := by
  have h1 := congrArg List.length (keys_setEntry_not_found k v l h)
  simpa using h1

/-- What one relaxation step guarantees: the core invariant and the
relaxation property away from the popped node are preserved, the popped
node's entry is untouched, the processed neighbour is relaxed, previously
relaxed edges stay relaxed, the measure does not grow, and the frontier only
gains entries. -/
def RelaxPost (w : GridWorld) (start goal current : Pos) (ccost : ℕ) (nxt : Pos)
    (st st' : AState) : Prop :=
  ACore w start goal st' ∧
  (∀ p c par, findEntry p st'.info = some (c, par) → p ≠ current →
    reachOK w goal st' p c) ∧
  (∃ cp', findEntry current st'.info = some (ccost, cp')) ∧
  relaxedAt w ccost st'.info nxt ∧
  (∀ b u, relaxedAt w b st.info u → relaxedAt w b st'.info u) ∧
  measureA w st' ≤ measureA w st ∧
  (∀ f ∈ st.frontier, f ∈ st'.frontier)

/-- The mutation branches of `relax` (improving update or fresh insertion). -/
theorem relax_mutation (w : GridWorld) (start goal current nxt : Pos) (ccost mc : ℕ)
    (cp : Option Pos) (st st' : AState)
    (hnb : nxt ∈ neighbors w current)
    (hcost : w.cost nxt.1 nxt.2 = some mc)
    (hcore : ACore w start goal st)
    (hexc : ∀ p c par, findEntry p st.info = some (c, par) → p ≠ current →
      reachOK w goal st p c)
    (hcur : findEntry current st.info = some (ccost, cp))
    (hchoice : (∃ oldCost oldPar, findEntry nxt st.info = some (oldCost, oldPar) ∧
        ccost + mc < oldCost) ∨ findEntry nxt st.info = none)
    (hst' : st' = ⟨(ccost + mc + heuristic nxt goal, nxt) :: st.frontier,
        setEntry nxt (ccost + mc, some current) st.info⟩) :
    RelaxPost w start goal current ccost nxt st st' := by
  subst hst'
  have hne_cur : nxt ≠ current := neighbors_ne hnb
  have hgrid_nxt : inGrid w nxt := neighbors_inGrid hnb
  have hne_start : nxt ≠ start := by
    intro he
    have hse := hcore.startEntry
    rw [← he] at hse
    rcases hchoice with ⟨oc, op, hfe, hlt⟩ | hfe
    · rw [hse] at hfe
      injection hfe with h'
      injection h' with h1 h2
      omega
    · rw [hse] at hfe
      cases hfe
  have hfe' : ∀ q, findEntry q (setEntry nxt (ccost + mc, some current) st.info) =
      if q = nxt then some (ccost + mc, some current) else findEntry q st.info :=
    fun q => findEntry_setEntry nxt q (ccost + mc, some current) st.info
  have hnxt' : findEntry nxt (setEntry nxt (ccost + mc, some current) st.info) =
      some (ccost + mc, some current) := by
    rw [hfe']; simp
  have cost_mono : ∀ p c par, findEntry p st.info = some (c, par) →
      ∃ c' par', findEntry p (setEntry nxt (ccost + mc, some current) st.info) =
        some (c', par') ∧ c' ≤ c := by
    intro p c par hp
    by_cases hpn : p = nxt
    · subst hpn
      rcases hchoice with ⟨oc, op, hfe, hlt⟩ | hfe
      · rw [hp] at hfe
        injection hfe with h'
        injection h' with h1 h2
        refine ⟨ccost + mc, some current, hnxt', ?_⟩
        omega
      · rw [hp] at hfe
        cases hfe
    · exact ⟨c, par, by rw [hfe', if_neg hpn]; exact hp, le_refl _⟩
  have hcur' : findEntry current (setEntry nxt (ccost + mc, some current) st.info) =
      some (ccost, cp) := by
    rw [hfe', if_neg (Ne.symm hne_cur)]
    exact hcur
  refine ⟨⟨?_, ?_, ?_, ?_, ?_, ?_, ?_, ?_⟩, ?_, ?_, ?_, ?_, ?_, ?_⟩
  · -- nodupKeys
    rcases hchoice with ⟨oc, op, hfe, hlt⟩ | hfe
    · rw [keys_setEntry_found _ _ _ (by rw [hfe]; simp)]
      exact hcore.nodupKeys
    · rw [keys_setEntry_not_found _ _ _ hfe]
      have hnm : nxt ∉ st.info.map Prod.fst := (findEntry_eq_none_iff nxt st.info).mp hfe
      refine hcore.nodupKeys.append (List.nodup_singleton _) ?_
      intro a ha hb
      rw [List.mem_singleton] at hb
      subst hb
      exact hnm ha
  · -- keysGrid
    intro k hk
    rcases hchoice with ⟨oc, op, hfe, hlt⟩ | hfe
    · rw [keys_setEntry_found _ _ _ (by rw [hfe]; simp)] at hk
      exact hcore.keysGrid k hk
    · rw [keys_setEntry_not_found _ _ _ hfe] at hk
      rcases List.mem_append.mp hk with hk | hk
      · exact hcore.keysGrid k hk
      · rw [List.mem_singleton] at hk
        subst hk
        exact Or.inl hgrid_nxt
  · -- startEntry
    rw [hfe', if_neg (Ne.symm hne_start)]
    exact hcore.startEntry
  · -- soundCost
    intro p c par hp
    rw [hfe'] at hp
    by_cases hpn : p = nxt
    · subst hpn
      rw [if_pos rfl] at hp
      injection hp with h'
      injection h' with h1 h2
      subst h1
      obtain ⟨rc, hrc, hrcost⟩ := hcore.soundCost current ccost cp hcur
      refine ⟨rc ++ [p], hrc.concat ⟨hnb, by rw [hcost]; rfl⟩, ?_⟩
      rw [routeCost_concat, hrcost, hcost]
      rfl
    · rw [if_neg hpn] at hp
      exact hcore.soundCost p c par hp
  · -- frontierKeyed
    intro f hf
    rcases List.mem_cons.mp hf with rfl | hf
    · exact ⟨ccost + mc, some current, hnxt', Or.inl (le_refl _)⟩
    · obtain ⟨c, par, hfp, hdisj⟩ := hcore.frontierKeyed f hf
      obtain ⟨c', par', hfp', hle⟩ := cost_mono f.2 c par hfp
      refine ⟨c', par', hfp', ?_⟩
      rcases hdisj with hle2 | ⟨hfeq, rfl⟩
      · exact Or.inl (le_trans (Nat.add_le_add_right hle _) hle2)
      · exact Or.inr ⟨hfeq, by omega⟩
  · -- parentChain
    intro p c q hp
    rw [hfe'] at hp
    by_cases hpn : p = nxt
    · rw [if_pos hpn] at hp
      injection hp with h'
      injection h' with h1 h2
      subst h1
      obtain rfl : current = q := by injection h2
      subst hpn
      exact ⟨ccost, cp, mc, hcur', hnb, hcost, le_refl _⟩
    · rw [if_neg hpn] at hp
      obtain ⟨cq, pq, mcp, hq, hpnb, hpc, hle⟩ := hcore.parentChain p c q hp
      obtain ⟨cq', pq', hq', hcq'⟩ := cost_mono q cq pq hq
      exact ⟨cq', pq', mcp, hq', hpnb, hpc, by omega⟩
  · -- parentNone
    intro p c hp
    rw [hfe'] at hp
    by_cases hpn : p = nxt
    · rw [if_pos hpn] at hp
      exfalso
      injection hp with h'
      injection h' with h1 h2
      exact Option.noConfusion h2
    · rw [if_neg hpn] at hp
      exact hcore.parentNone p c hp
  · -- fineBound
    intro p c par hp
    rw [hfe'] at hp
    rcases hchoice with ⟨oc, op, hfe, hlt⟩ | hfe
    · have hlen := length_setEntry_found nxt (ccost + mc, some current) st.info
        (by rw [hfe]; simp)
      rw [hlen]
      by_cases hpn : p = nxt
      · rw [if_pos hpn] at hp
        injection hp with h'
        injection h' with h1 h2
        have := hcore.fineBound nxt oc op hfe
        omega
      · rw [if_neg hpn] at hp
        exact hcore.fineBound p c par hp
    · have hlen := length_setEntry_not_found nxt (ccost + mc, some current) st.info hfe
      rw [hlen]
      have hmaxmc : mc ≤ maxCellCost w := cell_le_maxCellCost w nxt mc hgrid_nxt hcost
      have hccost := hcore.fineBound current ccost cp hcur
      have hpos : 1 ≤ st.info.length := by
        cases hinfo : st.info with
        | nil =>
            have hse := hcore.startEntry
            rw [hinfo] at hse
            cases hse
        | cons a l => simp
      have h1 : (st.info.length - 1) * maxCellCost w + maxCellCost w =
          st.info.length * maxCellCost w := by
        have h2 : (st.info.length - 1) + 1 = st.info.length := by omega
        calc (st.info.length - 1) * maxCellCost w + maxCellCost w
            = ((st.info.length - 1) + 1) * maxCellCost w := by ring
          _ = st.info.length * maxCellCost w := by rw [h2]
      have h3 : st.info.length + 1 - 1 = st.info.length := by omega
      rw [h3]
      by_cases hpn : p = nxt
      · rw [if_pos hpn] at hp
        injection hp with h'
        injection h' with h1' h2'
        omega
      · rw [if_neg hpn] at hp
        have := hcore.fineBound p c par hp
        have hmono : (st.info.length - 1) * maxCellCost w ≤
            st.info.length * maxCellCost w := Nat.mul_le_mul_right _ (by omega)
        omega
  · -- reachOK away from current
    intro p c par hp hpcur
    rw [hfe'] at hp
    by_cases hpn : p = nxt
    · subst hpn
      rw [if_pos rfl] at hp
      injection hp with h'
      injection h' with h1 h2
      subst h1
      exact Or.inl ⟨(ccost + mc + heuristic p goal, p), List.mem_cons_self _ _, rfl,
        le_refl _⟩
    · rw [if_neg hpn] at hp
      rcases hexc p c par hp hpcur with ⟨f, hf, hfp, hfle⟩ | hrel
      · exact Or.inl ⟨f, List.mem_cons_of_mem _ hf, hfp, hfle⟩
      · refine Or.inr ?_
        intro u hu cu hcu
        obtain ⟨c', p', hfu, hb⟩ := hrel u hu cu hcu
        obtain ⟨c'', p'', hfu', hc''⟩ := cost_mono u c' p' hfu
        exact ⟨c'', p'', hfu', by omega⟩
  · -- the popped node's entry is untouched
    exact ⟨cp, hcur'⟩
  · -- the processed neighbour is relaxed
    intro cu hcu
    rw [hcost] at hcu
    obtain rfl : mc = cu := by injection hcu
    exact ⟨ccost + mc, some current, hnxt', le_refl _⟩
  · -- relaxed edges stay relaxed
    intro b u hrel cu hcu
    obtain ⟨c', p', hfu, hb⟩ := hrel cu hcu
    obtain ⟨c'', p'', hfu', hc''⟩ := cost_mono u c' p' hfu
    exact ⟨c'', p'', hfu', by omega⟩
  · -- the measure does not grow
    unfold measureA
    simp only [List.length_cons]
    rcases hchoice with ⟨oc, op, hfe, hlt⟩ | hfe
    · have hsum := infoCostSum_setEntry_found nxt (ccost + mc, some current) st.info oc op hfe
      dsimp only at hsum
      have hocsum := findEntry_cost_le_sum nxt st.info oc op hfe
      have hlen := length_setEntry_found nxt (ccost + mc, some current) st.info
        (by rw [hfe]; simp)
      rw [hlen]
      omega
    · have hsum := infoCostSum_setEntry_not_found nxt (ccost + mc, some current) st.info hfe
      dsimp only at hsum
      have hlen := length_setEntry_not_found nxt (ccost + mc, some current) st.info hfe
      rw [hlen]
      have hkeys' := keys_setEntry_not_found nxt (ccost + mc, some current) st.info hfe
      have hnodup' : ((setEntry nxt (ccost + mc, some current) st.info).map Prod.fst).Nodup := by
        rw [hkeys']
        have hnm : nxt ∉ st.info.map Prod.fst := (findEntry_eq_none_iff nxt st.info).mp hfe
        refine hcore.nodupKeys.append (List.nodup_singleton _) ?_
        intro a ha hb
        rw [List.mem_singleton] at hb
        subst hb
        exact hnm ha
      have hkg' : ∀ k ∈ (setEntry nxt (ccost + mc, some current) st.info).map Prod.fst,
          inGrid w k ∨ k = start := by
        rw [hkeys']
        intro k hk
        rcases List.mem_append.mp hk with hk | hk
        · exact hcore.keysGrid k hk
        · rw [List.mem_singleton] at hk
          subst hk
          exact Or.inl hgrid_nxt
      have hN := info_length_le w start _ hnodup' hkg'
      rw [hlen] at hN
      have hmaxmc : mc ≤ maxCellCost w := cell_le_maxCellCost w nxt mc hgrid_nxt hcost
      have hccost := hcore.fineBound current ccost cp hcur
      have hpos : 1 ≤ st.info.length := by
        cases hinfo : st.info with
        | nil =>
            have hse := hcore.startEntry
            rw [hinfo] at hse
            cases hse
        | cons a l => simp
      have hncB : ccost + mc ≤ (w.width * w.height + 1) * maxCellCost w := by
        have h1 : (st.info.length - 1) * maxCellCost w + maxCellCost w =
            st.info.length * maxCellCost w := by
          have h2 : (st.info.length - 1) + 1 = st.info.length := by omega
          calc (st.info.length - 1) * maxCellCost w + maxCellCost w
              = ((st.info.length - 1) + 1) * maxCellCost w := by ring
            _ = st.info.length * maxCellCost w := by rw [h2]
        have h3 : st.info.length * maxCellCost w ≤
            (w.width * w.height + 1) * maxCellCost w := Nat.mul_le_mul_right _ (by omega)
        omega
      have hsplit : (w.width * w.height + 1 - st.info.length) *
          ((w.width * w.height + 1) * maxCellCost w + 1) =
          (w.width * w.height + 1 - (st.info.length + 1)) *
            ((w.width * w.height + 1) * maxCellCost w + 1) +
            ((w.width * w.height + 1) * maxCellCost w + 1) := by
        have h1 : w.width * w.height + 1 - st.info.length =
            (w.width * w.height + 1 - (st.info.length + 1)) + 1 := by omega
        rw [h1]
        ring
      rw [hsplit]
      omega
  · -- the frontier only gains entries
    intro f hf
    exact List.mem_cons_of_mem _ hf

/-- All branches of `relax` satisfy `RelaxPost`. -/
theorem relax_preserves (w : GridWorld) (start goal current nxt : Pos) (ccost : ℕ)
    (st st' : AState)
    (hnb : nxt ∈ neighbors w current)
    (hcore : ACore w start goal st)
    (hexc : ∀ p c par, findEntry p st.info = some (c, par) → p ≠ current →
      reachOK w goal st p c)
    (hcur : ∃ cp, findEntry current st.info = some (ccost, cp))
    (hst' : st' = relax w goal current ccost st nxt) :
    RelaxPost w start goal current ccost nxt st st' := by
  obtain ⟨cp, hcur⟩ := hcur
  unfold relax at hst'
  cases hcost : w.cost nxt.1 nxt.2 with
  | none =>
      rw [hcost] at hst'
      subst hst'
      refine ⟨hcore, hexc, ⟨cp, hcur⟩, ?_, fun b u h => h, le_refl _, fun f hf => hf⟩
      intro cu hcu
      rw [hcost] at hcu
      cases hcu
  | some mc =>
      rw [hcost] at hst'
      dsimp only at hst'
      cases hfe : findEntry nxt st.info with
      | some oldpair =>
          obtain ⟨oldCost, oldPar⟩ := oldpair
          rw [hfe] at hst'
          dsimp only at hst'
          by_cases himp : ccost + mc < oldCost
          · rw [if_pos himp] at hst'
            exact relax_mutation w start goal current nxt ccost mc cp st st' hnb hcost
              hcore hexc hcur (Or.inl ⟨oldCost, oldPar, hfe, himp⟩) hst'
          · rw [if_neg himp] at hst'
            subst hst'
            refine ⟨hcore, hexc, ⟨cp, hcur⟩, ?_, fun b u h => h, le_refl _, fun f hf => hf⟩
            intro cu hcu
            rw [hcost] at hcu
            obtain rfl : mc = cu := by injection hcu
            exact ⟨oldCost, oldPar, hfe, by omega⟩
      | none =>
          rw [hfe] at hst'
          dsimp only at hst'
          exact relax_mutation w start goal current nxt ccost mc cp st st' hnb hcost
            hcore hexc hcur (Or.inr hfe) hst'

/-- Folding `relax` over a list of neighbours preserves the invariant pieces
and relaxes every processed neighbour. -/
theorem foldl_relax_preserves (w : GridWorld) (start goal current : Pos) (ccost : ℕ) :
    ∀ (todo : List Pos) (st : AState),
      (∀ u ∈ todo, u ∈ neighbors w current) →
      ACore w start goal st →
      (∀ p c par, findEntry p st.info = some (c, par) → p ≠ current →
        reachOK w goal st p c) →
      (∃ cp, findEntry current st.info = some (ccost, cp)) →
      ACore w start goal (todo.foldl (relax w goal current ccost) st) ∧
      (∀ p c par, findEntry p (todo.foldl (relax w goal current ccost) st).info = some (c, par) →
        p ≠ current → reachOK w goal (todo.foldl (relax w goal current ccost) st) p c) ∧
      (∃ cp, findEntry current (todo.foldl (relax w goal current ccost) st).info =
        some (ccost, cp)) ∧
      (∀ u ∈ todo, relaxedAt w ccost (todo.foldl (relax w goal current ccost) st).info u) ∧
      (∀ b u, relaxedAt w b st.info u →
        relaxedAt w b (todo.foldl (relax w goal current ccost) st).info u) ∧
      measureA w (todo.foldl (relax w goal current ccost) st) ≤ measureA w st ∧
      (∀ f ∈ st.frontier, f ∈ (todo.foldl (relax w goal current ccost) st).frontier)
  | [], st, _, hcore, hexc, hcur =>
      ⟨hcore, hexc, hcur, fun u hu => absurd hu (List.not_mem_nil u),
        fun b u h => h, le_refl _, fun f hf => hf⟩
  | u :: todo, st, htodo, hcore, hexc, hcur => by
      have h1 := relax_preserves w start goal current u ccost st _
        (htodo u (List.mem_cons_self _ _)) hcore hexc hcur rfl
      obtain ⟨hcore1, hexc1, hcur1, hrel1, hmono1, hmeas1, hgrow1⟩ := h1
      have ih := foldl_relax_preserves w start goal current ccost todo
        (relax w goal current ccost st u)
        (fun v hv => htodo v (List.mem_cons_of_mem _ hv)) hcore1 hexc1 hcur1
      obtain ⟨hcoreF, hexcF, hcurF, hrelF, hmonoF, hmeasF, hgrowF⟩ := ih
      rw [List.foldl_cons]
      refine ⟨hcoreF, hexcF, hcurF, ?_, ?_, le_trans hmeasF hmeas1, ?_⟩
      · intro v hv
        rcases List.mem_cons.mp hv with rfl | hv
        · exact hmonoF ccost v hrel1
        · exact hrelF v hv
      · intro b v h
        exact hmonoF b v (hmono1 b v h)
      · intro f hf
        exact hgrowF f (hgrow1 f hf)

/-- One loop iteration preserves the invariant and strictly decreases the
measure. -/
theorem stepA_preserves (w : GridWorld) (start goal : Pos) (st st' : AState)
    (hinv : AInv w start goal st) (hstep : stepA w goal st = some st') :
    AInv w start goal st' ∧ measureA w st' < measureA w st := by
  obtain ⟨hcore, hreach⟩ := hinv
  unfold stepA at hstep
  cases hpop : popMin st.frontier with
  | none => rw [hpop] at hstep; cases hstep
  | some pr =>
      obtain ⟨⟨pri, current⟩, rest⟩ := pr
      rw [hpop] at hstep
      dsimp only at hstep
      by_cases hgoal : current = goal
      · rw [if_pos hgoal] at hstep; cases hstep
      · rw [if_neg hgoal] at hstep
        have hperm := popMin_perm st.frontier _ _ hpop
        have hmem : (pri, current) ∈ st.frontier := hperm.mem_iff.mpr (List.mem_cons_self _ _)
        obtain ⟨ccost, cpar, hcur, hpri⟩ := hcore.frontierKeyed (pri, current) hmem
        dsimp only at hcur hpri
        rw [hcur] at hstep
        dsimp only at hstep
        obtain rfl := Option.some.inj hstep
        have hcore_m : ACore w start goal ⟨rest, st.info⟩ :=
          ⟨hcore.nodupKeys, hcore.keysGrid, hcore.startEntry, hcore.soundCost,
            fun f hf => hcore.frontierKeyed f (hperm.mem_iff.mpr (List.mem_cons_of_mem _ hf)),
            hcore.parentChain, hcore.parentNone, hcore.fineBound⟩
        have hexc_m : ∀ p c par, findEntry p st.info = some (c, par) → p ≠ current →
            reachOK w goal ⟨rest, st.info⟩ p c := by
          intro p c par hp hpc
          rcases hreach p c par hp with ⟨f, hf, hfp, hfle⟩ | hrel
          · have hfm : f ∈ (pri, current) :: rest := hperm.mem_iff.mp hf
            rcases List.mem_cons.mp hfm with rfl | hfr
            · exact absurd hfp.symm hpc
            · exact Or.inl ⟨f, hfr, hfp, hfle⟩
          · exact Or.inr hrel
        have hfold := foldl_relax_preserves w start goal current ccost
          (neighbors w current) ⟨rest, st.info⟩ (fun u hu => hu) hcore_m hexc_m ⟨cpar, hcur⟩
        obtain ⟨hcoreF, hexcF, hcurF, hrelaxF, hmonoF, hmeasF, hgrowF⟩ := hfold
        constructor
        · refine ⟨hcoreF, ?_⟩
          intro p c par hp
          by_cases hpc : p = current
          · subst hpc
            obtain ⟨cpF, hcurF'⟩ := hcurF
            rw [hp] at hcurF'
            injection hcurF' with h'
            injection h' with h1 h2
            subst h1
            exact Or.inr (fun u hu => hrelaxF u hu)
          · exact hexcF p c par hp hpc
        · have hlen : st.frontier.length = rest.length + 1 := by
            have := hperm.length_eq
            simpa using this
          have hmid : measureA w ⟨rest, st.info⟩ + 1 = measureA w st := by
            unfold measureA
            dsimp only
            omega
          omega

/-- The loop preserves the invariant for any fuel. -/
theorem loopA_inv (w : GridWorld) (start goal : Pos) :
    ∀ (fuel : ℕ) (st : AState), AInv w start goal st →
      AInv w start goal (loopA w goal fuel st)
  | 0, st, h => h
  | fuel + 1, st, h => by
      unfold loopA
      cases hstep : stepA w goal st with
      | none => exact h
      | some st' =>
          exact loopA_inv w start goal fuel st'
            (stepA_preserves w start goal st st' h hstep).1

/-- With fuel above the measure, the loop runs until `stepA` signals exit. -/
theorem loopA_finishes (w : GridWorld) (start goal : Pos) :
    ∀ (fuel : ℕ) (st : AState), AInv w start goal st → measureA w st < fuel →
      stepA w goal (loopA w goal fuel st) = none
  | 0, _, _, hm => absurd hm (Nat.not_lt_zero _)
  | fuel + 1, st, h, hm => by
      unfold loopA
      cases hstep : stepA w goal st with
      | none => exact hstep
      | some st' =>
          obtain ⟨hinv', hlt⟩ := stepA_preserves w start goal st st' h hstep
          exact loopA_finishes w start goal fuel st' hinv' (by omega)

/-- The chosen fuel dominates the initial measure. -/
theorem measure_init_lt (w : GridWorld) (start : Pos) :
    measureA w ⟨[(0, start)], [(start, 0, none)]⟩ < aStarFuel w := by
  have h1 : ([(0, start)] : Frontier).length = 1 := rfl
  have h2 : infoCostSum [(start, 0, none)] = 0 := rfl
  have h3 : ([(start, 0, none)] : AInfo).length = 1 := rfl
  unfold measureA aStarFuel
  dsimp only
  rw [h1, h2, h3]
  have h4 : (w.width * w.height + 1 - 1) *
      ((w.width * w.height + 1) * maxCellCost w + 1) ≤
      (w.width * w.height + 1) * ((w.width * w.height + 1) * maxCellCost w + 1) :=
    Nat.mul_le_mul_right _ (by omega)
  omega

/-! ## The upper-bound walk along a route -/

/-- Walking a route from a recorded node: either the goal is recorded with a
cost bounded by the route, or some frontier entry has priority bounded by the
route (its heuristic is absorbed using consistency, which needs all cell
costs to be at least 1). -/
theorem route_upper_walk (w : GridWorld) (start goal : Pos) (st : AState)
    (hmin : ∀ x y c, w.cost x y = some c → 1 ≤ c)
    (hinv : AInv w start goal st) :
    ∀ (r : List Pos) (z : Pos), IsRoute w z r goal →
      ∀ (cz : ℕ) (pz : Option Pos), findEntry z st.info = some (cz, pz) →
      (∃ cg pg, findEntry goal st.info = some (cg, pg) ∧ cg ≤ cz + routeCost w r) ∨
      (∃ f ∈ st.frontier, f.1 ≤ cz + routeCost w r)
  | [], z, hr, cz, pz, hz => by
      cases hr
      exact Or.inl ⟨cz, pz, hz, by simp [routeCost]⟩
  | b :: rest, z, hr, cz, pz, hz => by
      cases hr with
      | cons hstep htail =>
          obtain ⟨hbnb, hbpass⟩ := hstep
          obtain ⟨cb_cell, hcb_cell⟩ := Option.isSome_iff_exists.mp hbpass
          rcases hinv.2 z cz pz hz with ⟨f, hf, hfp, hfle⟩ | hrel
          · refine Or.inr ⟨f, hf, ?_⟩
            have hcons : heuristic z goal ≤ routeCost w (b :: rest) :=
              heuristic_le_routeCost hmin (IsRoute.cons ⟨hbnb, hbpass⟩ htail)
            omega
          · obtain ⟨cb, pb, hfb, hcb_le⟩ := hrel b hbnb cb_cell hcb_cell
            rcases route_upper_walk w start goal st hmin hinv rest b htail cb pb hfb with
              ⟨cg, pg, hg, hle⟩ | ⟨f, hf, hle⟩
            · refine Or.inl ⟨cg, pg, hg, ?_⟩
              rw [routeCost_cons, hcb_cell]
              simp only [Option.getD_some]
              omega
            · refine Or.inr ⟨f, hf, ?_⟩
              rw [routeCost_cons, hcb_cell]
              simp only [Option.getD_some]
              omega

/-- At loop exit, the goal is recorded with a cost bounded by every route. -/
theorem final_goal_cost (w : GridWorld) (start goal : Pos) (st : AState)
    (hmin : ∀ x y c, w.cost x y = some c → 1 ≤ c)
    (hinv : AInv w start goal st)
    (hfin : stepA w goal st = none)
    (r : List Pos) (hr : IsRoute w start r goal) :
    ∃ cg pg, findEntry goal st.info = some (cg, pg) ∧ cg ≤ routeCost w r := by
  have hwalk := route_upper_walk w start goal st hmin hinv r start hr 0 none
    hinv.1.startEntry
  rcases hwalk with ⟨cg, pg, hg, hle⟩ | ⟨f, hf, hle⟩
  · exact ⟨cg, pg, hg, by omega⟩
  · unfold stepA at hfin
    cases hpop : popMin st.frontier with
    | none =>
        have he : st.frontier = [] := (popMin_eq_none_iff _).mp hpop
        rw [he] at hf
        cases hf
    | some pr =>
        obtain ⟨⟨pri, current⟩, rest⟩ := pr
        rw [hpop] at hfin
        dsimp only at hfin
        by_cases hgoal : current = goal
        · have hperm := popMin_perm st.frontier _ _ hpop
          have hmem : (pri, current) ∈ st.frontier :=
            hperm.mem_iff.mpr (List.mem_cons_self _ _)
          obtain ⟨cg, pg, hg, hdisj⟩ := hinv.1.frontierKeyed (pri, current) hmem
          dsimp only at hg hdisj
          rw [hgoal] at hg hdisj
          have hmp := popMin_le st.frontier _ _ hpop f hf
          dsimp only at hmp
          refine ⟨cg, pg, hg, ?_⟩
          rcases hdisj with hle2 | ⟨hfeq, rfl⟩
          · have hz := heuristic_self goal
            omega
          · omega
        · rw [if_neg hgoal] at hfin
          cases hfe : findEntry current st.info with
          | some pr2 =>
              obtain ⟨cc, pp⟩ := pr2
              rw [hfe] at hfin
              dsimp only at hfin
              cases hfin
          | none =>
              rw [hfe] at hfin
              dsimp only at hfin
              cases hfin

/-! ## Path reconstruction -/

/-- Reconstruction of the parent chain from a recorded node yields a route
from the start, excluding the start, ending at that node, and no costlier
than its recorded cost.  The chain is finite because recorded costs strictly
decrease along parents when every cell costs at least 1. -/
theorem reconstruct_spec (w : GridWorld) (start : Pos) (info : AInfo)
    (hmin : ∀ x y c, w.cost x y = some c → 1 ≤ c)
    (hchain : ∀ p c q, findEntry p info = some (c, some q) →
      ∃ cq pq mc, findEntry q info = some (cq, pq) ∧ p ∈ neighbors w q ∧
        w.cost p.1 p.2 = some mc ∧ cq + mc ≤ c)
    (hnone : ∀ p c, findEntry p info = some (c, none) → p = start) :
    ∀ c : ℕ, ∀ (cur : Pos) (par : Option Pos) (acc : List Pos) (fuel : ℕ),
      findEntry cur info = some (c, par) → c < fuel →
      ∃ rp, reconstructPath info start fuel cur acc = rp ++ acc ∧
        IsRoute w start rp cur ∧ start ∉ rp ∧ routeCost w rp ≤ c ∧
        (rp = [] ↔ cur = start) ∧ (cur ≠ start → rp.getLast? = some cur) := by
  intro c
  induction c using Nat.strong_induction_on with
  | _ c ih =>
      intro cur par acc fuel hcur hfuel
      cases fuel with
      | zero => omega
      | succ f =>
          unfold reconstructPath
          by_cases hcs : cur = start
          · rw [if_pos hcs]
            subst hcs
            exact ⟨[], rfl, IsRoute.nil cur, by simp, by simp [routeCost], by simp,
              fun h => absurd rfl h⟩
          · rw [if_neg hcs]
            cases par with
            | none => exact absurd (hnone cur c hcur) hcs
            | some q =>
                rw [hcur]
                dsimp only
                obtain ⟨cq, pq, mc, hq, hnb, hcost, hle⟩ := hchain cur c q hcur
                have h1 : 1 ≤ mc := hmin _ _ _ hcost
                have hcq : cq < c := by omega
                obtain ⟨rp, heq, hroute, hnotin, hcost_le, hiff, hlast⟩ :=
                  ih cq hcq q pq (cur :: acc) f hq (by omega)
                refine ⟨rp ++ [cur], ?_, hroute.concat ⟨hnb, by rw [hcost]; rfl⟩, ?_, ?_, ?_, ?_⟩
                · rw [heq]
                  simp
                · intro hmem
                  rcases List.mem_append.mp hmem with h | h
                  · exact hnotin h
                  · rw [List.mem_singleton] at h
                    exact hcs h.symm
                · rw [routeCost_concat, hcost]
                  simp only [Option.getD_some]
                  omega
                · constructor
                  · intro h
                    exact absurd h (by simp)
                  · intro h
                    exact absurd h hcs
                · intro _
                  exact List.getLast?_concat _

/-- The dead-code strip at the end of `_a_star_path` is a no-op when the
start is not on the path. -/
theorem head_strip_eq (p : List Pos) (start : Pos) (h : start ∉ p) :
    (if p.head? = some start then p.tail else p) = p := by
  cases p with
  | nil => simp
  | cons a l =>
      have hne : ¬ (a :: l).head? = some start := by
        rw [List.head?_cons]
        intro he
        injection he with he'
        subst he'
        exact h (List.mem_cons_self _ _)
      rw [if_neg hne]

/-! ## The end-to-end A* facts -/

/-- When the goal is reachable and every cell costs at least one, the
algorithm returns a route to the goal whose cost `cg` is recorded, bounds
the path cost from above, and is a lower bound of every route cost. -/
theorem aStar_run (w : GridWorld) (start goal : Pos)
    (hmin : ∀ x y c, w.cost x y = some c → 1 ≤ c)
    (hreach : ∃ r : List Pos, IsRoute w start r goal) :
    ∃ rp cg, aStarPath w start goal = (rp, some cg) ∧
      IsRoute w start rp goal ∧ start ∉ rp ∧ routeCost w rp ≤ cg ∧
      (rp = [] ↔ goal = start) ∧ (goal ≠ start → rp.getLast? = some goal) ∧
      ∀ r : List Pos, IsRoute w start r goal → cg ≤ routeCost w r := by
  obtain ⟨r0, hr0⟩ := hreach
  have hinv := loopA_inv w start goal (aStarFuel w) _ (ainv_init w start goal)
  have hfin := loopA_finishes w start goal (aStarFuel w) _ (ainv_init w start goal)
    (measure_init_lt w start)
  obtain ⟨cg, pg, hg, hle0⟩ := final_goal_cost w start goal _ hmin hinv hfin r0 hr0
  have hmincg : ∀ r : List Pos, IsRoute w start r goal → cg ≤ routeCost w r := by
    intro r hr
    obtain ⟨cg', pg', hg', hle'⟩ := final_goal_cost w start goal _ hmin hinv hfin r hr
    rw [hg] at hg'
    injection hg' with h'
    injection h' with h1 h2
    omega
  obtain ⟨rp, heq, hroute, hnotin, hcost_le, hiff, hlast⟩ :=
    reconstruct_spec w start _ hmin hinv.1.parentChain hinv.1.parentNone
      cg goal pg [] (cg + 1) hg (by omega)
  refine ⟨rp, cg, ?_, hroute, hnotin, hcost_le, hiff, hlast, hmincg⟩
  simp only [aStarPath]
  rw [hg]
  dsimp only
  rw [heq, List.append_nil, head_strip_eq rp start hnotin]

/-! ## Pathfinding claim theorems -/

/-- C1: on any grid whose passable cells all cost at least 1 (all terrains of
the repository cost 1..3), whenever some 4-connected route through passable
cells joins start to goal, `_a_star_path` returns a route whose total cost
(the sum of the movement costs of the entered cells) is minimal among all
such routes, and reports exactly that cost. -/
theorem a_star_optimal (w : GridWorld) (start goal : Pos)
    (hmin : ∀ x y c, w.cost x y = some c → 1 ≤ c)
    (hreach : ∃ r : List Pos, IsRoute w start r goal) :
    IsRoute w start (aStarPath w start goal).1 goal ∧
    (aStarPath w start goal).2 = some (routeCost w (aStarPath w start goal).1) ∧
    ∀ r : List Pos, IsRoute w start r goal →
      routeCost w (aStarPath w start goal).1 ≤ routeCost w r := by
  obtain ⟨rp, cg, hrun, hroute, hnotin, hcost_le, hiff, hlast, hmincg⟩ :=
    aStar_run w start goal hmin hreach
  rw [hrun]
  dsimp only
  have hmin_rp := hmincg rp hroute
  have hcg : cg = routeCost w rp := by omega
  refine ⟨hroute, by rw [hcg], ?_⟩
  intro r hr
  have := hmincg r hr
  omega

/-- Witness for `a_star_optimal` on a 2×1 all-plains grid. -/
theorem a_star_optimal_witness :
    (∀ x y c, (GridWorld.mk 2 1 (fun _ _ => some 1)).cost x y = some c → 1 ≤ c) ∧
    (∃ r : List Pos, IsRoute ⟨2, 1, fun _ _ => some 1⟩ (0, 0) r (1, 0)) ∧
    (IsRoute ⟨2, 1, fun _ _ => some 1⟩ (0, 0)
      (aStarPath ⟨2, 1, fun _ _ => some 1⟩ (0, 0) (1, 0)).1 (1, 0) ∧
    (aStarPath ⟨2, 1, fun _ _ => some 1⟩ (0, 0) (1, 0)).2 =
      some (routeCost ⟨2, 1, fun _ _ => some 1⟩
        (aStarPath ⟨2, 1, fun _ _ => some 1⟩ (0, 0) (1, 0)).1) ∧
    ∀ r : List Pos, IsRoute ⟨2, 1, fun _ _ => some 1⟩ (0, 0) r (1, 0) →
      routeCost ⟨2, 1, fun _ _ => some 1⟩
        (aStarPath ⟨2, 1, fun _ _ => some 1⟩ (0, 0) (1, 0)).1 ≤
        routeCost ⟨2, 1, fun _ _ => some 1⟩ r) := by
  have hmin : ∀ x y c, (GridWorld.mk 2 1 (fun _ _ => some 1)).cost x y = some c → 1 ≤ c := by
    intro x y c h
    injection h with h'
    omega
  have hstep : IsStep ⟨2, 1, fun _ _ => some 1⟩ (0, 0) (1, 0) := by
    constructor
    · decide
    · rfl
  have hreach : ∃ r : List Pos, IsRoute ⟨2, 1, fun _ _ => some 1⟩ (0, 0) r (1, 0) :=
    ⟨[(1, 0)], IsRoute.cons hstep (IsRoute.nil (1, 0))⟩
  exact ⟨hmin, hreach, a_star_optimal ⟨2, 1, fun _ _ => some 1⟩ (0, 0) (1, 0) hmin hreach⟩

/-- C6: when no 4-connected route through passable cells joins start to goal
(for example, the goal is surrounded by impassable terrain), `_a_star_path`
returns the empty path with infinite cost. -/
theorem a_star_unreachable (w : GridWorld) (start goal : Pos)
    (h : ∀ r : List Pos, ¬ IsRoute w start r goal) :
    aStarPath w start goal = ([], none) := by
  have hinv := loopA_inv w start goal (aStarFuel w) _ (ainv_init w start goal)
  simp only [aStarPath]
  cases hfe : findEntry goal
      (loopA w goal (aStarFuel w) ⟨[(0, start)], [(start, 0, none)]⟩).info with
  | none => rfl
  | some pr =>
      obtain ⟨cg, pg⟩ := pr
      exfalso
      obtain ⟨r, hr, _⟩ := hinv.1.soundCost goal cg pg hfe
      exact h r hr

/-- Witness for `a_star_unreachable`: a 2×1 grid whose second cell is
impassable. -/
theorem a_star_unreachable_witness :
    (∀ r : List Pos,
      ¬ IsRoute ⟨2, 1, fun x _ => if x = 0 then some 1 else none⟩ (0, 0) r (1, 0)) ∧
    aStarPath ⟨2, 1, fun x _ => if x = 0 then some 1 else none⟩ (0, 0) (1, 0) = ([], none) := by
  have h : ∀ r : List Pos,
      ¬ IsRoute ⟨2, 1, fun x _ => if x = 0 then some 1 else none⟩ (0, 0) r (1, 0) :=
    no_route_into_impassable (by decide) (by decide)
  exact ⟨h, a_star_unreachable _ (0, 0) (1, 0) h⟩

/-- C7: on a reachable pair with distinct start and goal (cells costing at
least 1, as in the repository), the returned path does not contain the
start, is nonempty, ends at the goal, and is a 4-connected route from the
start to the goal in order. -/
theorem a_star_path_shape (w : GridWorld) (start goal : Pos)
    (hmin : ∀ x y c, w.cost x y = some c → 1 ≤ c)
    (hne : start ≠ goal)
    (hreach : ∃ r : List Pos, IsRoute w start r goal) :
    IsRoute w start (aStarPath w start goal).1 goal ∧
    start ∉ (aStarPath w start goal).1 ∧
    (aStarPath w start goal).1 ≠ [] ∧
    (aStarPath w start goal).1.getLast? = some goal := by
  obtain ⟨rp, cg, hrun, hroute, hnotin, hcost_le, hiff, hlast, hmincg⟩ :=
    aStar_run w start goal hmin hreach
  rw [hrun]
  refine ⟨hroute, hnotin, ?_, hlast (fun hgs => hne hgs.symm)⟩
  intro hnil
  exact hne (hiff.mp hnil).symm

/-- Witness for `a_star_path_shape` on a 2×1 all-plains grid. -/
theorem a_star_path_shape_witness :
    (∀ x y c, (GridWorld.mk 2 1 (fun _ _ => some 1)).cost x y = some c → 1 ≤ c) ∧
    ((0, 0) : Pos) ≠ (1, 0) ∧
    (∃ r : List Pos, IsRoute ⟨2, 1, fun _ _ => some 1⟩ (0, 0) r (1, 0)) ∧
    (IsRoute ⟨2, 1, fun _ _ => some 1⟩ (0, 0)
      (aStarPath ⟨2, 1, fun _ _ => some 1⟩ (0, 0) (1, 0)).1 (1, 0) ∧
    ((0, 0) : Pos) ∉ (aStarPath ⟨2, 1, fun _ _ => some 1⟩ (0, 0) (1, 0)).1 ∧
    (aStarPath ⟨2, 1, fun _ _ => some 1⟩ (0, 0) (1, 0)).1 ≠ [] ∧
    (aStarPath ⟨2, 1, fun _ _ => some 1⟩ (0, 0) (1, 0)).1.getLast? = some (1, 0)) := by
  have hmin : ∀ x y c, (GridWorld.mk 2 1 (fun _ _ => some 1)).cost x y = some c → 1 ≤ c := by
    intro x y c h
    injection h with h'
    omega
  have hstep : IsStep ⟨2, 1, fun _ _ => some 1⟩ (0, 0) (1, 0) := by
    constructor
    · decide
    · rfl
  have hreach : ∃ r : List Pos, IsRoute ⟨2, 1, fun _ _ => some 1⟩ (0, 0) r (1, 0) :=
    ⟨[(1, 0)], IsRoute.cons hstep (IsRoute.nil (1, 0))⟩
  exact ⟨hmin, by decide, hreach,
    a_star_path_shape ⟨2, 1, fun _ _ => some 1⟩ (0, 0) (1, 0) hmin (by decide) hreach⟩

/-! ## Target selection (Brain.find_path_to, src/ai/brains.py) -/

/-- The Python comparison `total_cost < best_cost` with `float('inf')`
modelled as `none`. -/
def ltCost : Option ℕ → Option ℕ → Bool
  | some x, some y => decide (x < y)
  | some _, none => true
  | none, _ => false

/-- One iteration of the candidate loop: keep the candidate's path when it is
nonempty and strictly cheaper than the best so far. -/
def selectStep (w : GridWorld) (playerPos : Pos) (best : List Pos × Option ℕ)
    (entry : Pos × String × ℕ) : List Pos × Option ℕ :=
  let pc := aStarPath w playerPos entry.1
  if pc.1 ≠ [] ∧ ltCost pc.2 best.2 = true then (pc.1, pc.2) else best

/-- `Brain.find_path_to`: fold the candidate list with the best-so-far
accumulator (initially `([], inf)`) and return the best path. -/
def findPathTo (w : GridWorld) (playerPos : Pos) (candidates : List (Pos × String × ℕ)) :
    List Pos :=
  if candidates = [] then []
  else (candidates.foldl (selectStep w playerPos) ([], none)).1

/-- A nonempty A* path comes with a finite reported cost. -/
theorem aStarPath_cost_isSome (w : GridWorld) (s g : Pos)
    (h : (aStarPath w s g).1 ≠ []) : ∃ c, (aStarPath w s g).2 = some c := by
  simp only [aStarPath] at h ⊢
  cases hfe : findEntry g (loopA w g (aStarFuel w) ⟨[(0, s)], [(s, 0, none)]⟩).info with
  | none =>
      rw [hfe] at h
      dsimp only at h
      exact absurd rfl h
  | some pr =>
      obtain ⟨c, pg⟩ := pr
      dsimp only
      exact ⟨c, rfl⟩

/-- The accumulator invariant of the candidate loop: either nothing was
selected and no candidate has a nonempty path, or the accumulator holds the
earliest candidate of minimal cost among those with nonempty paths. -/
def SelSpec (w : GridWorld) (pp : Pos) (cs : List (Pos × String × ℕ))
    (r : List Pos × Option ℕ) : Prop :=
  (r = ([], none) ∧ ∀ e ∈ cs, (aStarPath w pp e.1).1 = []) ∨
  (∃ pre e post, cs = pre ++ e :: post ∧
    r = ((aStarPath w pp e.1).1, (aStarPath w pp e.1).2) ∧
    (aStarPath w pp e.1).1 ≠ [] ∧
    ∃ ce, (aStarPath w pp e.1).2 = some ce ∧
      (∀ e' ∈ cs, (aStarPath w pp e'.1).1 ≠ [] →
        ltCost (aStarPath w pp e'.1).2 (some ce) = false) ∧
      (∀ e' ∈ pre, (aStarPath w pp e'.1).1 ≠ [] →
        ltCost (some ce) (aStarPath w pp e'.1).2 = true))

/-- The candidate loop satisfies its invariant. -/
theorem sel_spec (w : GridWorld) (pp : Pos) (cs : List (Pos × String × ℕ)) :
    SelSpec w pp cs (cs.foldl (selectStep w pp) ([], none)) := by
  induction cs using List.reverseRecOn with
  | nil => exact Or.inl ⟨rfl, fun e he => absurd he (List.not_mem_nil e)⟩
  | append_singleton cs e ih =>
      rw [List.foldl_append, List.foldl_cons, List.foldl_nil]
      rcases ih with ⟨hr, hall⟩ | ⟨pre, e0, post, hcs, hr, hne, ce, hce, hminP, hstrict⟩
      · rw [hr]
        unfold selectStep
        dsimp only
        by_cases hp : (aStarPath w pp e.1).1 ≠ []
        · obtain ⟨c, hc⟩ := aStarPath_cost_isSome w pp e.1 hp
          rw [if_pos ⟨hp, by rw [hc]; rfl⟩]
          refine Or.inr ⟨cs, e, [], rfl, rfl, hp, c, hc, ?_, ?_⟩
          · intro e' he' hne'
            rcases List.mem_append.mp he' with he' | he'
            · exact absurd (hall e' he') hne'
            · rw [List.mem_singleton] at he'
              subst he'
              rw [hc]
              simp [ltCost]
          · intro e' he' hne'
            exact absurd (hall e' he') hne'
        · rw [if_neg (fun hcond => hp hcond.1)]
          refine Or.inl ⟨rfl, ?_⟩
          intro e' he'
          rcases List.mem_append.mp he' with he' | he'
          · exact hall e' he'
          · rw [List.mem_singleton] at he'
            subst he'
            exact not_not.mp hp
      · rw [hr]
        unfold selectStep
        dsimp only
        rw [hce]
        by_cases hcond : (aStarPath w pp e.1).1 ≠ [] ∧
            ltCost (aStarPath w pp e.1).2 (some ce) = true
        · rw [if_pos hcond]
          obtain ⟨hpne, hlt⟩ := hcond
          obtain ⟨cnew, hcnew⟩ := aStarPath_cost_isSome w pp e.1 hpne
          have hlt' : cnew < ce := by
            rw [hcnew] at hlt
            simpa [ltCost] using hlt
          refine Or.inr ⟨cs, e, [], rfl, rfl, hpne, cnew, hcnew, ?_, ?_⟩
          · intro e' he' hne'
            rcases List.mem_append.mp he' with he' | he'
            · have h1 := hminP e' he' hne'
              cases hx : (aStarPath w pp e'.1).2 with
              | none => simp [ltCost]
              | some x =>
                  rw [hx] at h1
                  simp only [ltCost, decide_eq_false_iff_not, not_lt] at h1 ⊢
                  omega
            · rw [List.mem_singleton] at he'
              subst he'
              rw [hcnew]
              simp [ltCost]
          · intro e' he' hne'
            obtain ⟨x, hx⟩ := aStarPath_cost_isSome w pp e'.1 hne'
            have h1 := hminP e' he' hne'
            rw [hx] at h1 ⊢
            simp only [ltCost, decide_eq_false_iff_not, not_lt] at h1
            simp only [ltCost, decide_eq_true_eq]
            omega
        · rw [if_neg hcond]
          refine Or.inr ⟨pre, e0, post ++ [e], by rw [hcs]; simp, by rw [hce], hne, ce, hce,
            ?_, hstrict⟩
          intro e' he' hne'
          rcases List.mem_append.mp he' with he' | he'
          · exact hminP e' he' hne'
          · rw [List.mem_singleton] at he'
            subst he'
            cases hb : ltCost (aStarPath w pp e'.1).2 (some ce) with
            | false => rfl
            | true => exact absurd ⟨hne', hb⟩ hcond
  
/-- C8: `find_path_to` returns the A* path of the earliest candidate whose
total path cost is minimal among all candidates with a nonempty path; when
no candidate has a nonempty path (in particular when none is reachable), it
returns `[]`. -/
theorem find_path_to_selection (w : GridWorld) (pp : Pos)
    (cs : List (Pos × String × ℕ)) :
    ((∃ e ∈ cs, (aStarPath w pp e.1).1 ≠ []) →
      ∃ pre e post, cs = pre ++ e :: post ∧
        findPathTo w pp cs = (aStarPath w pp e.1).1 ∧
        (aStarPath w pp e.1).1 ≠ [] ∧
        ∃ ce, (aStarPath w pp e.1).2 = some ce ∧
          (∀ e' ∈ cs, (aStarPath w pp e'.1).1 ≠ [] →
            ∃ c', (aStarPath w pp e'.1).2 = some c' ∧ ce ≤ c') ∧
          (∀ e' ∈ pre, (aStarPath w pp e'.1).1 ≠ [] →
            ∃ c', (aStarPath w pp e'.1).2 = some c' ∧ ce < c')) ∧
    ((¬ ∃ e ∈ cs, (aStarPath w pp e.1).1 ≠ []) → findPathTo w pp cs = []) := by
  have hsel := sel_spec w pp cs
  constructor
  · rintro ⟨e1, he1, hne1⟩
    rcases hsel with ⟨hr, hall⟩ | ⟨pre, e, post, hcs, hr, hne, ce, hce, hmin, hstrict⟩
    · exact absurd (hall e1 he1) hne1
    · have hcs_ne : cs ≠ [] := by rw [hcs]; simp
      refine ⟨pre, e, post, hcs, ?_, hne, ce, hce, ?_, ?_⟩
      · unfold findPathTo
        rw [if_neg hcs_ne, hr]
      · intro e' he' hne'
        obtain ⟨c', hc'⟩ := aStarPath_cost_isSome w pp e'.1 hne'
        have h1 := hmin e' he' hne'
        rw [hc'] at h1
        simp only [ltCost, decide_eq_false_iff_not, not_lt] at h1
        exact ⟨c', hc', h1⟩
      · intro e' he' hne'
        obtain ⟨c', hc'⟩ := aStarPath_cost_isSome w pp e'.1 hne'
        have h1 := hstrict e' he' hne'
        rw [hc'] at h1
        simp only [ltCost, decide_eq_true_eq] at h1
        exact ⟨c', hc', h1⟩
  · intro hnone
    rcases hsel with ⟨hr, hall⟩ | ⟨pre, e, post, hcs, hr, hne, ce, hce, hmin, hstrict⟩
    · unfold findPathTo
      by_cases hcs : cs = []
      · rw [if_pos hcs]
      · rw [if_neg hcs, hr]
    · refine absurd ⟨e, ?_, hne⟩ hnone
      rw [hcs]
      exact List.mem_append_right _ (List.mem_cons_self _ _)

/-- Witness for `find_path_to_selection`: two candidates on a 3×1 plains
strip; the nearer one (listed second) is selected. -/
theorem find_path_to_selection_witness :
    (∃ e ∈ [(((2 : ℤ), (0 : ℤ)), "water", 2), (((1 : ℤ), (0 : ℤ)), "water", 1)],
      (aStarPath ⟨3, 1, fun _ _ => some 1⟩ (0, 0) e.1).1 ≠ []) ∧
    (∃ pre e post,
      [(((2 : ℤ), (0 : ℤ)), "water", 2), (((1 : ℤ), (0 : ℤ)), "water", 1)] =
        pre ++ e :: post ∧
      findPathTo ⟨3, 1, fun _ _ => some 1⟩ (0, 0)
        [(((2 : ℤ), (0 : ℤ)), "water", 2), (((1 : ℤ), (0 : ℤ)), "water", 1)] =
        (aStarPath ⟨3, 1, fun _ _ => some 1⟩ (0, 0) e.1).1 ∧
      (aStarPath ⟨3, 1, fun _ _ => some 1⟩ (0, 0) e.1).1 ≠ [] ∧
      ∃ ce, (aStarPath ⟨3, 1, fun _ _ => some 1⟩ (0, 0) e.1).2 = some ce ∧
        (∀ e' ∈ [(((2 : ℤ), (0 : ℤ)), "water", 2), (((1 : ℤ), (0 : ℤ)), "water", 1)],
          (aStarPath ⟨3, 1, fun _ _ => some 1⟩ (0, 0) e'.1).1 ≠ [] →
          ∃ c', (aStarPath ⟨3, 1, fun _ _ => some 1⟩ (0, 0) e'.1).2 = some c' ∧ ce ≤ c') ∧
        (∀ e' ∈ pre,
          (aStarPath ⟨3, 1, fun _ _ => some 1⟩ (0, 0) e'.1).1 ≠ [] →
          ∃ c', (aStarPath ⟨3, 1, fun _ _ => some 1⟩ (0, 0) e'.1).2 = some c' ∧ ce < c')) := by
  refine ⟨by decide, ?_⟩
  exact (find_path_to_selection ⟨3, 1, fun _ _ => some 1⟩ (0, 0)
    [(((2 : ℤ), (0 : ℤ)), "water", 2), (((1 : ℤ), (0 : ℤ)), "water", 1)]).1 (by decide)
